import Mathlib

/-
Shallow embedding of `src/actinia_core/resources/persistent_mapset_merger.py`:
the class `AsyncPersistentMapsetMerging` with its methods `_check_lock_mapset`,
`_check_lock_source_mapsets`, `_merge_mapsets` and `_final_cleanup`.

External collaborators (the lease lock service reached through
`self.lock_interface`, the existence oracle `self._check_mapset`, the merge
executor `self._merge_mapset_into_target`, the termination signal
`self.resource_logger.get_termination` and the run wrapper that always calls
`_final_cleanup`) live outside the excerpt; they are modelled from the spec as
oracles in an `Env` record, and every call to them is recorded as an `Event`
in an observable trace.
-/

namespace ActiniaMerge

/-- One observable interaction of a run with its external collaborators,
in the order the code issues them. -/
inductive Event where
  /-- The call `self._check_mapset(mapset_name)` returning `found`. -/
  | existCheck (mapset : String) (found : Bool)
  /-- The call `self.lock_interface.lock(resource_id=lockId, expiration=expiration)`;
  `ok = false` models return value `0` (resource already locked). -/
  | lockCall (lockId : String) (mapset : String) (expiration : Nat) (ok : Bool)
  /-- The call `self.lock_interface.extend(resource_id=lockId, expiration=expiration)`;
  `ok = false` models return value `0`. -/
  | extendCall (lockId : String) (expiration : Nat) (ok : Bool)
  /-- The progress message "Step %i of %i: Copy content from source mapset
  <%s> into target mapset <%s>" sent via `_send_resource_update`. -/
  | messageStep (step : Nat) (steps : Nat) (source : String) (target : String)
  /-- The poll `self.resource_logger.get_termination(user_id, resource_id)`. -/
  | termPoll (result : Bool)
  /-- The call `self._merge_mapset_into_target(mapset_name, target_mapset_name)`;
  `ok = false` models the opaque copy operation failing. -/
  | mergeCall (source : String) (target : String) (ok : Bool)
  /-- The call `AsyncPersistentProcessing._final_cleanup(self)`: the data-directory
  teardown done by the base class before the unlock loop. -/
  | teardown
  /-- The call `self.lock_interface.unlock(lock_id)`; the code ignores the result. -/
  | unlockCall (lockId : String) (ok : Bool)
deriving DecidableEq, Repr

/-- The terminal condition of a run: `none` below stands for normal return,
and these constructors stand for the exceptions the code raises, keyed by
their message. -/
inductive Outcome where
  /-- Raised as `AsyncProcessError("Mapset <%s> does not exist and can not be locked.")` -/
  | resourceNotFound (mapset : String)
  /-- Raised as `AsyncProcessError("Unable to lock mapset <%s>, resource is already locked")` -/
  | lockConflict (mapset : String)
  /-- Raised as `AsyncProcessError("Empty source mapset list.")` -/
  | emptySourceList
  /-- Raised as `AsyncProcessError("Unable to extend lock for mapset <%s>")`; the name
  is the outer-loop `mapset_name`, not the key whose extension failed. -/
  | leaseLost (mapset : String)
  /-- Raised as `AsyncProcessTermination("... terminated by user request at setp %i of %i")` -/
  | terminated (step : Nat) (steps : Nat)
  /-- The opaque copy operation raised for this source/target pair.
  Modelled from the spec: `MergeExecutionFailed` is fatal for a specific
  source (`_merge_mapset_into_target` is outside the excerpt). -/
  | mergeFailed (source : String) (target : String)
deriving DecidableEq, Repr

/-- The fields of the job object that the merging code reads:
`self.user_group`, `self.location_name`, `self.target_mapset_name`,
`self.request_data` (the JSON list of source mapset names),
`self.process_time_limit` and `self.process_num_limit`. -/
structure MergeJob where
  user_group : String
  location_name : String
  target_mapset_name : String
  request_data : List String
  process_time_limit : Nat
  process_num_limit : Nat
deriving DecidableEq, Repr

/-- Modelled from the spec: the external collaborators as oracles.
`mapset_exists` is the existence oracle; `held_by_others` tells which lease
keys other holders own (the lock service grants a `lock` call exactly when
the key is held by nobody — the interface `lock(key, ttl) -> bool` carries no
holder identity, so a key this run already holds is refused the same way);
`extend_ok`, `merge_ok`, `termination` and `unlock_ok` give the result of the
n-th extend call, merge invocation, termination poll and unlock call. -/
structure Env where
  mapset_exists : String → Bool
  held_by_others : String → Bool
  extend_ok : Nat → Bool
  merge_ok : Nat → Bool
  termination : Nat → Bool
  unlock_ok : Nat → Bool

/-- The mutable state of one run: `lock_ids` is the insertion-ordered dict
`self.lock_ids` (lease key to mapset name), `step` the loop counter of
`_merge_mapsets`, and `trace` the events issued so far, oldest first. -/
structure RunState where
  lock_ids : List (String × String)
  step : Nat
  trace : List Event
deriving DecidableEq, Repr

/-- The state at the start of `run()`: empty registry, no events. -/
def initState : RunState := { lock_ids := [], step := 0, trace := [] }

/-- The key `"%s/%s/%s" % (self.user_group, self.location_name, mapset_name)`. -/
def lockIdOf (job : MergeJob) (mapset : String) : String :=
  job.user_group ++ "/" ++ job.location_name ++ "/" ++ mapset

/-- Python dict assignment `d[k] = v`: overwrite in place if the key is
present, else append (insertion order preserved). -/
def dictSet (l : List (String × String)) (k v : String) : List (String × String) :=
  match l with
  | [] => [(k, v)]
  | (k', v') :: rest => if k' = k then (k, v) :: rest else (k', v') :: dictSet rest k v

/-- Python dict lookup `d.get(k)`. -/
def dictGet (l : List (String × String)) (k : String) : Option String :=
  match l with
  | [] => none
  | (k', v') :: rest => if k' = k then some v' else dictGet rest k

/-- Membership test `k in d` for the dict. -/
def dictHasKey (l : List (String × String)) (k : String) : Bool :=
  l.any (fun p => p.1 = k)

/-- Number of `lock` calls in a trace. -/
def lockCallCount (tr : List Event) : Nat :=
  tr.countP (fun e => match e with | .lockCall _ _ _ _ => true | _ => false)

/-- Number of successful `lock` calls in a trace. -/
def successfulLockCount (tr : List Event) : Nat :=
  tr.countP (fun e => match e with | .lockCall _ _ _ ok => ok | _ => false)

/-- Number of `extend` calls in a trace. -/
def extendCallCount (tr : List Event) : Nat :=
  tr.countP (fun e => match e with | .extendCall _ _ _ => true | _ => false)

/-- Number of merge-copy invocations in a trace (successful or not). -/
def mergeCallCount (tr : List Event) : Nat :=
  tr.countP (fun e => match e with | .mergeCall _ _ _ => true | _ => false)

/-- Number of successful merge-copy invocations in a trace. -/
def successfulMergeCount (tr : List Event) : Nat :=
  tr.countP (fun e => match e with | .mergeCall _ _ ok => ok | _ => false)

/-- Number of termination polls in a trace. -/
def termPollCount (tr : List Event) : Nat :=
  tr.countP (fun e => match e with | .termPoll _ => true | _ => false)

/-- Number of `unlock` calls in a trace. -/
def unlockCallCount (tr : List Event) : Nat :=
  tr.countP (fun e => match e with | .unlockCall _ _ => true | _ => false)

/-- The `lock` calls of a trace, projected to (mapset, ok), oldest first. -/
def lockCallsOf (tr : List Event) : List (String × Bool) :=
  tr.filterMap (fun e => match e with | .lockCall _ m _ ok => some (m, ok) | _ => none)

/-- The merge-copy invocations of a trace as (source, target, ok) triples. -/
def mergeCallsOf (tr : List Event) : List (String × String × Bool) :=
  tr.filterMap (fun e => match e with | .mergeCall s t ok => some (s, t, ok) | _ => none)

/-- The keys of the `unlock` calls of a trace, oldest first. -/
def unlockKeysOf (tr : List Event) : List String :=
  tr.filterMap (fun e => match e with | .unlockCall k _ => some k | _ => none)

/-- The method `_check_lock_mapset(self, mapset_name)`: check that the mapset exists,
lock it with expiration `process_time_limit * process_num_limit`, and on
success store `lock_ids[lock_id] = mapset_name`. Raises on a missing mapset
or a refused lock. -/
def check_lock_mapset (env : Env) (job : MergeJob) (st : RunState)
    (mapset_name : String) : RunState × Option Outcome :=
  let found := env.mapset_exists mapset_name
  let st := { st with trace := st.trace ++ [Event.existCheck mapset_name found] }
  if found = false then
    (st, some (Outcome.resourceNotFound mapset_name))
  else
    let lock_id := lockIdOf job mapset_name
    let expiration := job.process_time_limit * job.process_num_limit
    let ok := !env.held_by_others lock_id && !dictHasKey st.lock_ids lock_id
    let st := { st with trace := st.trace ++ [Event.lockCall lock_id mapset_name expiration ok] }
    if ok = false then
      (st, some (Outcome.lockConflict mapset_name))
    else
      ({ st with lock_ids := dictSet st.lock_ids lock_id mapset_name }, none)

/-- The `for mapset in source_mapsets` loop of `_check_lock_source_mapsets`:
lock each source in turn, aborting on the first failure. -/
def lock_sources (env : Env) (job : MergeJob) (st : RunState) :
    List String → RunState × Option Outcome
  | [] => (st, none)
  | m :: rest =>
    match check_lock_mapset env job st m with
    | (st', some e) => (st', some e)
    | (st', none) => lock_sources env job st' rest

/-- The method `_check_lock_source_mapsets(self, source_mapsets)`: raise
"Empty source mapset list." on an empty list, else check and lock each
source mapset. -/
def check_lock_source_mapsets (env : Env) (job : MergeJob) (st : RunState)
    (source_mapsets : List String) : RunState × Option Outcome :=
  if source_mapsets.length = 0 then
    (st, some Outcome.emptySourceList)
  else
    lock_sources env job st source_mapsets

/-- The inner `for lock_id in self.lock_ids` loop of `_merge_mapsets`:
extend every held lock by `process_time_limit * 2`, raising
"Unable to extend lock for mapset <mapset_name>" (naming the outer loop's
mapset) on the first failure. -/
def extend_all (env : Env) (job : MergeJob) (st : RunState)
    (mapset_name : String) : List String → RunState × Option Outcome
  | [] => (st, none)
  | lock_id :: rest =>
    let expiration := job.process_time_limit * 2
    let ok := env.extend_ok (extendCallCount st.trace)
    let st := { st with trace := st.trace ++ [Event.extendCall lock_id expiration ok] }
    if ok = false then
      (st, some (Outcome.leaseLost mapset_name))
    else
      extend_all env job st mapset_name rest

/-- The outer `for lock_id in self.lock_ids` loop of `_merge_mapsets`:
poll the termination signal, extend all locks, send the progress message,
and — when the current mapset is not the target — increment `step` and
invoke the merge copy. -/
def merge_loop (env : Env) (job : MergeJob) (st : RunState) (steps : Nat) :
    List (String × String) → RunState × Option Outcome
  | [] => (st, none)
  | (_, mapset_name) :: rest =>
    let tres := env.termination (termPollCount st.trace)
    let st := { st with trace := st.trace ++ [Event.termPoll tres] }
    if tres = true then
      (st, some (Outcome.terminated st.step steps))
    else
      match extend_all env job st mapset_name (st.lock_ids.map Prod.fst) with
      | (st', some e) => (st', some e)
      | (st', none) =>
        let st := { st' with trace := st'.trace ++
          [Event.messageStep st'.step steps mapset_name job.target_mapset_name] }
        if mapset_name ≠ job.target_mapset_name then
          let st := { st with step := st.step + 1 }
          let ok := env.merge_ok (mergeCallCount st.trace)
          let st := { st with trace := st.trace ++
            [Event.mergeCall mapset_name job.target_mapset_name ok] }
          if ok = false then
            (st, some (Outcome.mergeFailed mapset_name job.target_mapset_name))
          else
            merge_loop env job st steps rest
        else
          merge_loop env job st steps rest

/-- The method `_merge_mapsets(self)`: lock the target, lock the sources, then iterate
over the registry copying each entry into the target. -/
def merge_mapsets (env : Env) (job : MergeJob) (st : RunState) :
    RunState × Option Outcome :=
  match check_lock_mapset env job st job.target_mapset_name with
  | (st', some e) => (st', some e)
  | (st', none) =>
    match check_lock_source_mapsets env job st' job.request_data with
    | (st', some e) => (st', some e)
    | (st', none) =>
      let st' := { st' with step := 1 }
      merge_loop env job st' job.request_data.length st'.lock_ids

/-- The unlock loop of `_final_cleanup`: `self.lock_interface.unlock(lock_id)`
for every registry key; the result of each call is recorded but ignored. -/
def unlock_all (env : Env) (st : RunState) :
    List (String × String) → RunState
  | [] => st
  | (lock_id, _) :: rest =>
    let ok := env.unlock_ok (unlockCallCount st.trace)
    let st := { st with trace := st.trace ++ [Event.unlockCall lock_id ok] }
    unlock_all env st rest

/-- The method `_final_cleanup(self)`: base-class teardown, then unlock every mapset
registered in `self.lock_ids`. -/
def final_cleanup (env : Env) (st : RunState) : RunState :=
  let st := { st with trace := st.trace ++ [Event.teardown] }
  unlock_all env st st.lock_ids

/-- Modelled from the spec: the job-level runner (`run()` of the base class,
outside the excerpt) executes `_merge_mapsets` and then unconditionally
invokes `_final_cleanup`, whatever the outcome. -/
def run_job (env : Env) (job : MergeJob) : RunState × Option Outcome :=
  (final_cleanup env (merge_mapsets env job initState).1,
   (merge_mapsets env job initState).2)

/-! ### Dictionary lemmas -/

theorem dictSet_of_not_hasKey (l : List (String × String)) (k v : String)
    (h : dictHasKey l k = false) : dictSet l k v = l ++ [(k, v)] := by
  induction l with
  | nil => rfl
  | cons p rest ih =>
    obtain ⟨k', v'⟩ := p
    simp only [dictHasKey, List.any_cons, Bool.or_eq_false_iff, decide_eq_false_iff_not] at h
    have hrest : dictHasKey rest k = false := by
      simp only [dictHasKey, List.any_eq_false, decide_eq_true_eq] at h ⊢
      exact fun p hp => h.2 p hp
    simp [dictSet, h.1, ih hrest]

theorem dictGet_dictSet_same (l : List (String × String)) (k v : String) :
    dictGet (dictSet l k v) k = some v := by
  induction l with
  | nil => simp [dictSet, dictGet]
  | cons p rest ih =>
    obtain ⟨k', v'⟩ := p
    by_cases h : k' = k
    · simp [dictSet, dictGet, h]
    · simp [dictSet, dictGet, h, ih]

theorem dictGet_dictSet_other (l : List (String × String)) (k v k' : String)
    (h : k' ≠ k) : dictGet (dictSet l k v) k' = dictGet l k' := by
  have hne : ¬k = k' := fun hk => h hk.symm
  induction l with
  | nil => simp [dictSet, dictGet, hne]
  | cons p rest ih =>
    obtain ⟨a, b⟩ := p
    by_cases ha : a = k
    · subst ha
      simp [dictSet, dictGet, hne]
    · simp [dictSet, dictGet, ha, ih]

theorem dictSet_length_of_not_hasKey (l : List (String × String)) (k v : String)
    (h : dictHasKey l k = false) : (dictSet l k v).length = l.length + 1 := by
  rw [dictSet_of_not_hasKey l k v h]; simp

theorem dictHasKey_append (l l' : List (String × String)) (k : String) :
    dictHasKey (l ++ l') k = (dictHasKey l k || dictHasKey l' k) := by
  simp [dictHasKey, List.any_append]

/-! ### Trace-count lemmas -/

theorem successfulLockCount_append (a b : List Event) :
    successfulLockCount (a ++ b) = successfulLockCount a + successfulLockCount b := by
  simp [successfulLockCount, List.countP_append]

theorem lockCallCount_append (a b : List Event) :
    lockCallCount (a ++ b) = lockCallCount a + lockCallCount b := by
  simp [lockCallCount, List.countP_append]

theorem mergeCallCount_append (a b : List Event) :
    mergeCallCount (a ++ b) = mergeCallCount a + mergeCallCount b := by
  simp [mergeCallCount, List.countP_append]

theorem termPollCount_append (a b : List Event) :
    termPollCount (a ++ b) = termPollCount a + termPollCount b := by
  simp [termPollCount, List.countP_append]

theorem unlockCallCount_append (a b : List Event) :
    unlockCallCount (a ++ b) = unlockCallCount a + unlockCallCount b := by
  simp [unlockCallCount, List.countP_append]

theorem lockCallsOf_append (a b : List Event) :
    lockCallsOf (a ++ b) = lockCallsOf a ++ lockCallsOf b := by
  simp [lockCallsOf, List.filterMap_append]

theorem mergeCallsOf_append (a b : List Event) :
    mergeCallsOf (a ++ b) = mergeCallsOf a ++ mergeCallsOf b := by
  simp [mergeCallsOf, List.filterMap_append]

theorem unlockKeysOf_append (a b : List Event) :
    unlockKeysOf (a ++ b) = unlockKeysOf a ++ unlockKeysOf b := by
  simp [unlockKeysOf, List.filterMap_append]

theorem mergeCallCount_nil : mergeCallCount [] = 0 := rfl

theorem termPollCount_nil : termPollCount [] = 0 := rfl

theorem successfulLockCount_nil : successfulLockCount [] = 0 := rfl

theorem unlockCallCount_nil : unlockCallCount [] = 0 := rfl

theorem mergeCallCount_cons (e : Event) (tr : List Event) :
    mergeCallCount (e :: tr)
      = (match e with | .mergeCall _ _ _ => 1 | _ => 0) + mergeCallCount tr := by
  cases e <;> simp [mergeCallCount, List.countP_cons] <;> omega

theorem mergeCallCount_singleton (e : Event) :
    mergeCallCount [e] = (match e with | .mergeCall _ _ _ => 1 | _ => 0) := by
  rw [mergeCallCount_cons]
  simp [mergeCallCount]

theorem termPollCount_cons (e : Event) (tr : List Event) :
    termPollCount (e :: tr)
      = (match e with | .termPoll _ => 1 | _ => 0) + termPollCount tr := by
  cases e <;> simp [termPollCount, List.countP_cons] <;> omega

theorem termPollCount_singleton (e : Event) :
    termPollCount [e] = (match e with | .termPoll _ => 1 | _ => 0) := by
  rw [termPollCount_cons]
  simp [termPollCount]

theorem successfulLockCount_cons (e : Event) (tr : List Event) :
    successfulLockCount (e :: tr)
      = (match e with | .lockCall _ _ _ ok => if ok then 1 else 0 | _ => 0)
        + successfulLockCount tr := by
  cases e <;> simp [successfulLockCount, List.countP_cons] <;> rename_i ok <;>
    cases ok <;> simp <;> omega

theorem successfulLockCount_singleton (e : Event) :
    successfulLockCount [e]
      = (match e with | .lockCall _ _ _ ok => if ok then 1 else 0 | _ => 0) := by
  rw [successfulLockCount_cons]
  simp [successfulLockCount]

theorem unlockCallCount_eq_length_unlockKeysOf (tr : List Event) :
    unlockCallCount tr = (unlockKeysOf tr).length := by
  induction tr with
  | nil => rfl
  | cons e rest ih =>
    cases e <;> simp [unlockCallCount, unlockKeysOf, List.countP_cons, List.filterMap_cons] <;>
      simp [unlockCallCount, unlockKeysOf] at ih <;> omega

/-- Describes a trace segment consisting only of lease-extension calls. -/
def OnlyExtendEvents (Δ : List Event) : Prop :=
  ∀ e ∈ Δ, ∃ k x ok, e = Event.extendCall k x ok

theorem mergeCallCount_of_onlyExtend (Δ : List Event) (h : OnlyExtendEvents Δ) :
    mergeCallCount Δ = 0 := by
  simp only [mergeCallCount, List.countP_eq_zero]
  intro e he
  obtain ⟨k, x, ok, rfl⟩ := h e he
  simp

theorem successfulLockCount_of_onlyExtend (Δ : List Event) (h : OnlyExtendEvents Δ) :
    successfulLockCount Δ = 0 := by
  simp only [successfulLockCount, List.countP_eq_zero]
  intro e he
  obtain ⟨k, x, ok, rfl⟩ := h e he
  simp

theorem lockCallsOf_of_onlyExtend (Δ : List Event) (h : OnlyExtendEvents Δ) :
    lockCallsOf Δ = [] := by
  simp only [lockCallsOf, List.filterMap_eq_nil_iff]
  intro e he
  obtain ⟨k, x, ok, rfl⟩ := h e he
  simp

theorem mergeCallsOf_of_onlyExtend (Δ : List Event) (h : OnlyExtendEvents Δ) :
    mergeCallsOf Δ = [] := by
  simp only [mergeCallsOf, List.filterMap_eq_nil_iff]
  intro e he
  obtain ⟨k, x, ok, rfl⟩ := h e he
  simp

theorem unlockKeysOf_of_onlyExtend (Δ : List Event) (h : OnlyExtendEvents Δ) :
    unlockKeysOf Δ = [] := by
  simp only [unlockKeysOf, List.filterMap_eq_nil_iff]
  intro e he
  obtain ⟨k, x, ok, rfl⟩ := h e he
  simp

theorem termPollCount_of_onlyExtend (Δ : List Event) (h : OnlyExtendEvents Δ) :
    termPollCount Δ = 0 := by
  simp only [termPollCount, List.countP_eq_zero]
  intro e he
  obtain ⟨k, x, ok, rfl⟩ := h e he
  simp

/-! ### Shape lemmas for the locking phase -/

/-- Events the locking phase may append: existence checks and lock calls. -/
def LockPhaseEvent (e : Event) : Prop :=
  (∃ a b, e = Event.existCheck a b) ∨ (∃ a b c d, e = Event.lockCall a b c d)

theorem mergeCallCount_of_lockPhase (Δ : List Event) (h : ∀ e ∈ Δ, LockPhaseEvent e) :
    mergeCallCount Δ = 0 := by
  simp only [mergeCallCount, List.countP_eq_zero]
  intro e he
  rcases h e he with ⟨a, b, rfl⟩ | ⟨a, b, c, d, rfl⟩ <;> simp

theorem termPollCount_of_lockPhase (Δ : List Event) (h : ∀ e ∈ Δ, LockPhaseEvent e) :
    termPollCount Δ = 0 := by
  simp only [termPollCount, List.countP_eq_zero]
  intro e he
  rcases h e he with ⟨a, b, rfl⟩ | ⟨a, b, c, d, rfl⟩ <;> simp

theorem unlockKeysOf_of_lockPhase (Δ : List Event) (h : ∀ e ∈ Δ, LockPhaseEvent e) :
    unlockKeysOf Δ = [] := by
  simp only [unlockKeysOf, List.filterMap_eq_nil_iff]
  intro e he
  rcases h e he with ⟨a, b, rfl⟩ | ⟨a, b, c, d, rfl⟩ <;> simp

/-- How one locking-phase call relates the state before to the state after:
only lock-phase events are appended, the step counter is untouched, and the
size of the registry grows by exactly the number of successful lock calls. -/
def LockPhaseStep (st st' : RunState) : Prop :=
  (∃ Δ, st'.trace = st.trace ++ Δ ∧ ∀ e ∈ Δ, LockPhaseEvent e) ∧
  st'.step = st.step ∧
  st'.lock_ids.length + successfulLockCount st.trace
    = st.lock_ids.length + successfulLockCount st'.trace

theorem lockPhaseStep_refl (st : RunState) : LockPhaseStep st st :=
  ⟨⟨[], by simp, by simp⟩, rfl, rfl⟩

theorem lockPhaseStep_trans {a b c : RunState}
    (h1 : LockPhaseStep a b) (h2 : LockPhaseStep b c) : LockPhaseStep a c := by
  obtain ⟨⟨Δ1, hΔ1, hp1⟩, hs1, hl1⟩ := h1
  obtain ⟨⟨Δ2, hΔ2, hp2⟩, hs2, hl2⟩ := h2
  refine ⟨⟨Δ1 ++ Δ2, by simp [hΔ2, hΔ1], ?_⟩, hs2.trans hs1, by omega⟩
  intro e he
  rcases List.mem_append.mp he with h | h
  · exact hp1 e h
  · exact hp2 e h

/-- The outcomes `_check_lock_mapset` can produce. -/
def LockOutcome (o : Option Outcome) : Prop :=
  o = none ∨ (∃ a, o = some (Outcome.resourceNotFound a)) ∨
    (∃ a, o = some (Outcome.lockConflict a))

theorem check_lock_mapset_spec (env : Env) (job : MergeJob) (st : RunState) (m : String) :
    LockPhaseStep st (check_lock_mapset env job st m).1 ∧
    LockOutcome (check_lock_mapset env job st m).2 := by
  unfold check_lock_mapset
  by_cases hf : env.mapset_exists m = false
  · refine ⟨⟨⟨[Event.existCheck m false], by simp [hf], ?_⟩, by simp [hf], ?_⟩, ?_⟩
    · intro e he
      simp at he
      exact Or.inl ⟨m, false, he⟩
    · simp [hf, successfulLockCount_append, successfulLockCount]
    · simp [hf, LockOutcome]
  · have hf' : env.mapset_exists m = true := by
      cases h : env.mapset_exists m
      · exact absurd h hf
      · rfl
    by_cases hok : (!env.held_by_others (lockIdOf job m)
        && !dictHasKey st.lock_ids (lockIdOf job m)) = false
    · refine ⟨⟨⟨[Event.existCheck m true,
        Event.lockCall (lockIdOf job m) m (job.process_time_limit * job.process_num_limit) false],
        by simp [hf', hok], ?_⟩, by simp [hf', hok], ?_⟩, ?_⟩
      · intro e he
        simp at he
        rcases he with rfl | rfl
        · exact Or.inl ⟨_, _, rfl⟩
        · exact Or.inr ⟨_, _, _, _, rfl⟩
      · simp [hf', hok, successfulLockCount_append, successfulLockCount, List.countP_cons]
      · simp [hf', hok, LockOutcome]
    · have hok' : (!env.held_by_others (lockIdOf job m)
          && !dictHasKey st.lock_ids (lockIdOf job m)) = true := by
        cases h : (!env.held_by_others (lockIdOf job m)
            && !dictHasKey st.lock_ids (lockIdOf job m))
        · exact absurd h hok
        · rfl
      have hkey : dictHasKey st.lock_ids (lockIdOf job m) = false := by
        rcases Bool.and_eq_true_iff.mp hok' with ⟨_, h2⟩
        cases h : dictHasKey st.lock_ids (lockIdOf job m)
        · rfl
        · rw [h] at h2; simp at h2
      refine ⟨⟨⟨[Event.existCheck m true,
        Event.lockCall (lockIdOf job m) m (job.process_time_limit * job.process_num_limit) true],
        by simp [hf', hok'], ?_⟩, by simp [hf', hok'], ?_⟩, ?_⟩
      · intro e he
        simp at he
        rcases he with rfl | rfl
        · exact Or.inl ⟨_, _, rfl⟩
        · exact Or.inr ⟨_, _, _, _, rfl⟩
      · simp [hf', hok', successfulLockCount_append, successfulLockCount, List.countP_cons,
          dictSet_length_of_not_hasKey _ _ _ hkey]
        omega
      · simp [hf', hok', LockOutcome]

theorem lock_sources_spec (env : Env) (job : MergeJob) :
    ∀ (names : List String) (st : RunState),
      LockPhaseStep st (lock_sources env job st names).1 ∧
      LockOutcome (lock_sources env job st names).2 := by
  intro names
  induction names with
  | nil => intro st; exact ⟨lockPhaseStep_refl st, Or.inl rfl⟩
  | cons m rest ih =>
    intro st
    have hm := check_lock_mapset_spec env job st m
    unfold lock_sources
    cases hc : check_lock_mapset env job st m with
    | mk st' o =>
      cases o with
      | some e =>
        simp only []
        rw [hc] at hm
        exact ⟨hm.1, hm.2⟩
      | none =>
        simp only []
        rw [hc] at hm
        exact ⟨lockPhaseStep_trans hm.1 (ih st').1, (ih st').2⟩

/-- The outcomes `_check_lock_source_mapsets` can produce. -/
def SourceLockOutcome (o : Option Outcome) : Prop :=
  LockOutcome o ∨ o = some Outcome.emptySourceList

theorem check_lock_source_mapsets_spec (env : Env) (job : MergeJob)
    (st : RunState) (names : List String) :
    LockPhaseStep st (check_lock_source_mapsets env job st names).1 ∧
    SourceLockOutcome (check_lock_source_mapsets env job st names).2 := by
  unfold check_lock_source_mapsets
  by_cases h : names.length = 0
  · simp only [h, if_pos rfl]
    exact ⟨lockPhaseStep_refl st, Or.inr rfl⟩
  · simp only [if_neg h]
    exact ⟨(lock_sources_spec env job names st).1, Or.inl (lock_sources_spec env job names st).2⟩

/-! ### Shape lemmas for the merge loop -/

theorem extend_all_spec (env : Env) (job : MergeJob) (m : String) :
    ∀ (keys : List String) (st : RunState),
      (extend_all env job st m keys).1.lock_ids = st.lock_ids ∧
      (extend_all env job st m keys).1.step = st.step ∧
      (∃ Δ, (extend_all env job st m keys).1.trace = st.trace ++ Δ ∧ OnlyExtendEvents Δ) ∧
      ((extend_all env job st m keys).2 = none ∨
        (extend_all env job st m keys).2 = some (Outcome.leaseLost m)) := by
  intro keys
  induction keys with
  | nil =>
    intro st
    exact ⟨rfl, rfl, ⟨[], by simp [extend_all], by intro e he; simp at he⟩, Or.inl rfl⟩
  | cons k rest ih =>
    intro st
    simp only [extend_all]
    split
    · refine ⟨rfl, rfl, ⟨[Event.extendCall k (job.process_time_limit * 2)
        (env.extend_ok (extendCallCount st.trace))], rfl, ?_⟩, Or.inr rfl⟩
      intro e he
      simp at he
      exact ⟨_, _, _, he⟩
    · obtain ⟨h1, h2, ⟨Δ, hΔ, hOnly⟩, h4⟩ :=
        ih { st with trace := st.trace ++ [Event.extendCall k (job.process_time_limit * 2)
          (env.extend_ok (extendCallCount st.trace))] }
      refine ⟨h1, h2, ⟨Event.extendCall k (job.process_time_limit * 2)
        (env.extend_ok (extendCallCount st.trace)) :: Δ, by simp [hΔ], ?_⟩, h4⟩
      intro e he
      rcases List.mem_cons.mp he with rfl | h
      · exact ⟨_, _, _, rfl⟩
      · exact hOnly e h

/-- Events the merge loop may append; a merge-copy invocation recorded by the
loop always has a source different from the target. -/
def MergeLoopEvent (target : String) (e : Event) : Prop :=
  (∃ b, e = Event.termPoll b) ∨ (∃ k x ok, e = Event.extendCall k x ok) ∨
    (∃ a b c d, e = Event.messageStep a b c d) ∨
    (∃ s ok, e = Event.mergeCall s target ok ∧ s ≠ target)

theorem successfulLockCount_of_mergeLoop (t : String) (Δ : List Event)
    (h : ∀ e ∈ Δ, MergeLoopEvent t e) : successfulLockCount Δ = 0 := by
  simp only [successfulLockCount, List.countP_eq_zero]
  intro e he
  rcases h e he with ⟨b, rfl⟩ | ⟨k, x, ok, rfl⟩ | ⟨a, b, c, d, rfl⟩ | ⟨s, ok, rfl, hs⟩ <;> simp

theorem lockCallsOf_of_mergeLoop (t : String) (Δ : List Event)
    (h : ∀ e ∈ Δ, MergeLoopEvent t e) : lockCallsOf Δ = [] := by
  simp only [lockCallsOf, List.filterMap_eq_nil_iff]
  intro e he
  rcases h e he with ⟨b, rfl⟩ | ⟨k, x, ok, rfl⟩ | ⟨a, b, c, d, rfl⟩ | ⟨s, ok, rfl, hs⟩ <;> simp

theorem unlockKeysOf_of_mergeLoop (t : String) (Δ : List Event)
    (h : ∀ e ∈ Δ, MergeLoopEvent t e) : unlockKeysOf Δ = [] := by
  simp only [unlockKeysOf, List.filterMap_eq_nil_iff]
  intro e he
  rcases h e he with ⟨b, rfl⟩ | ⟨k, x, ok, rfl⟩ | ⟨a, b, c, d, rfl⟩ | ⟨s, ok, rfl, hs⟩ <;> simp

/-- Master invariant of the outer loop of `_merge_mapsets`: the registry is
untouched, the step counter always exceeds the number of merge-copy
invocations by exactly one, only loop events are appended, a termination
outcome reports the current step counter and total, and a lease-loss outcome
names precisely the mapset of the loop iteration in which it happened. -/
theorem merge_loop_spec (env : Env) (job : MergeJob) (steps : Nat) :
    ∀ (entries : List (String × String)) (st : RunState),
      st.step = mergeCallCount st.trace + 1 →
      (merge_loop env job st steps entries).1.lock_ids = st.lock_ids ∧
      (merge_loop env job st steps entries).1.step
        = mergeCallCount (merge_loop env job st steps entries).1.trace + 1 ∧
      (∃ Δ, (merge_loop env job st steps entries).1.trace = st.trace ++ Δ ∧
        ∀ e ∈ Δ, MergeLoopEvent job.target_mapset_name e) ∧
      (∀ k s2, (merge_loop env job st steps entries).2 = some (Outcome.terminated k s2) →
        k = (merge_loop env job st steps entries).1.step ∧ s2 = steps) ∧
      (∀ m, (merge_loop env job st steps entries).2 = some (Outcome.leaseLost m) →
        ∃ i key, entries[i]? = some (key, m) ∧
          termPollCount (merge_loop env job st steps entries).1.trace
            = termPollCount st.trace + i + 1) := by
  intro entries
  induction entries with
  | nil =>
    intro st hstep
    refine ⟨rfl, hstep, ⟨[], by simp [merge_loop], by intro e he; simp at he⟩, ?_, ?_⟩
    · intro k s2 h
      simp [merge_loop] at h
    · intro m h
      simp [merge_loop] at h
  | cons p rest ih =>
    intro st hstep
    obtain ⟨k0, m0⟩ := p
    simp only [merge_loop]
    split
    · -- termination requested at this step boundary
      refine ⟨rfl, ?_, ⟨[Event.termPoll (env.termination (termPollCount st.trace))],
        rfl, ?_⟩, ?_, ?_⟩
      · simp [mergeCallCount_append, mergeCallCount, hstep]
      · intro e he
        simp at he
        exact Or.inl ⟨_, he⟩
      · intro k s2 h
        simp at h
        exact ⟨h.1.symm, h.2.symm⟩
      · intro m h
        simp at h
    · -- no termination: extend all locks
      split
      · -- a lock extension failed
        rename_i st2 ex hext
        obtain ⟨he1, he2, ⟨Δe, hΔe, hOe⟩, he4⟩ := extend_all_spec env job m0
          (st.lock_ids.map Prod.fst)
          { st with trace := st.trace ++
            [Event.termPoll (env.termination (termPollCount st.trace))] }
        rw [hext] at he1 he2 hΔe he4
        simp only at he1 he2 hΔe he4
        rcases he4 with h | h
        · exact absurd h (by simp)
        · have hex' : ex = Outcome.leaseLost m0 := by
            simpa using h
          subst hex'
          refine ⟨he1, ?_, ⟨Event.termPoll (env.termination (termPollCount st.trace)) :: Δe,
            by simp [hΔe], ?_⟩, ?_, ?_⟩
          · rw [he2, hstep]
            simp only [hΔe]
            rw [mergeCallCount_append, mergeCallCount_append,
              mergeCallCount_of_onlyExtend Δe hOe]
            simp [mergeCallCount]
          · intro e he
            rcases List.mem_cons.mp he with rfl | h
            · exact Or.inl ⟨_, rfl⟩
            · obtain ⟨a, b, c, rfl⟩ := hOe e h
              exact Or.inr (Or.inl ⟨_, _, _, rfl⟩)
          · intro k s2 h
            simp at h
          · intro m h
            have hm : m = m0 := by simpa using h.symm
            subst hm
            refine ⟨0, k0, by simp, ?_⟩
            simp only [hΔe]
            rw [termPollCount_append, termPollCount_append,
              termPollCount_of_onlyExtend Δe hOe]
            simp [termPollCount]
      · -- all extensions succeeded
        rename_i st2 hext
        obtain ⟨he1, he2, ⟨Δe, hΔe, hOe⟩, he4⟩ := extend_all_spec env job m0
          (st.lock_ids.map Prod.fst)
          { st with trace := st.trace ++
            [Event.termPoll (env.termination (termPollCount st.trace))] }
        rw [hext] at he1 he2 hΔe he4
        simp only at he1 he2 hΔe he4
        split
        · -- the current mapset is not the target: perform the merge copy
          split
          · -- the merge-copy invocation failed
            rename_i hne hmok
            refine ⟨by simpa using he1, ?_,
              ⟨Event.termPoll (env.termination (termPollCount st.trace)) :: (Δe ++
                [Event.messageStep st2.step steps m0 job.target_mapset_name,
                 Event.mergeCall m0 job.target_mapset_name
                   (env.merge_ok (mergeCallCount (st2.trace ++
                     [Event.messageStep st2.step steps m0 job.target_mapset_name])))]),
                by simp [hΔe], ?_⟩, ?_, ?_⟩
            · have hm2 : mergeCallCount st2.trace = mergeCallCount st.trace := by
                rw [hΔe, mergeCallCount_append, mergeCallCount_append,
                  mergeCallCount_of_onlyExtend Δe hOe]
                simp [mergeCallCount_singleton]
              simp [mergeCallCount_append, mergeCallCount_cons, mergeCallCount_singleton,
                mergeCallCount_nil, hm2, he2, hstep]
            · intro e he
              rcases List.mem_cons.mp he with rfl | h
              · exact Or.inl ⟨_, rfl⟩
              rcases List.mem_append.mp h with h | h
              · obtain ⟨a, b, c, rfl⟩ := hOe e h
                exact Or.inr (Or.inl ⟨_, _, _, rfl⟩)
              · simp at h
                rcases h with rfl | rfl
                · exact Or.inr (Or.inr (Or.inl ⟨_, _, _, _, rfl⟩))
                · exact Or.inr (Or.inr (Or.inr ⟨_, _, rfl, by assumption⟩))
            · intro k s2 h
              simp at h
            · intro m h
              simp at h
          · -- the merge-copy invocation succeeded: continue with the rest
            rename_i hne hmok
            have hstep5 : ({ st2 with
                step := st2.step + 1,
                trace := (st2.trace ++
                  [Event.messageStep st2.step steps m0 job.target_mapset_name]) ++
                  [Event.mergeCall m0 job.target_mapset_name
                    (env.merge_ok (mergeCallCount (st2.trace ++
                      [Event.messageStep st2.step steps m0 job.target_mapset_name])))] } :
                RunState).step = mergeCallCount ({ st2 with
                step := st2.step + 1,
                trace := (st2.trace ++
                  [Event.messageStep st2.step steps m0 job.target_mapset_name]) ++
                  [Event.mergeCall m0 job.target_mapset_name
                    (env.merge_ok (mergeCallCount (st2.trace ++
                      [Event.messageStep st2.step steps m0 job.target_mapset_name])))] } :
                RunState).trace + 1 := by
              simp only [RunState.step, RunState.trace]
              rw [he2]
              simp only [hΔe]
              repeat rw [mergeCallCount_append]
              rw [mergeCallCount_of_onlyExtend Δe hOe]
              simp [mergeCallCount, hstep]
            obtain ⟨i1, i2, ⟨Δr, hΔr, hOr⟩, i4, i5⟩ := ih _ hstep5
            refine ⟨by simpa [he1] using i1, i2,
              ⟨Event.termPoll (env.termination (termPollCount st.trace)) :: (Δe ++
                [Event.messageStep st2.step steps m0 job.target_mapset_name,
                 Event.mergeCall m0 job.target_mapset_name
                   (env.merge_ok (mergeCallCount (st2.trace ++
                     [Event.messageStep st2.step steps m0 job.target_mapset_name])))] ++ Δr),
                by rw [hΔr]; simp [hΔe], ?_⟩, i4, ?_⟩
            · intro e he
              rcases List.mem_cons.mp he with rfl | h
              · exact Or.inl ⟨_, rfl⟩
              rcases List.mem_append.mp h with h | h
              rcases List.mem_append.mp h with h | h
              · obtain ⟨a, b, c, rfl⟩ := hOe e h
                exact Or.inr (Or.inl ⟨_, _, _, rfl⟩)
              · simp at h
                rcases h with rfl | rfl
                · exact Or.inr (Or.inr (Or.inl ⟨_, _, _, _, rfl⟩))
                · exact Or.inr (Or.inr (Or.inr ⟨_, _, rfl, by assumption⟩))
              · exact hOr e h
            · intro m h
              obtain ⟨i, key, hkey, hcnt⟩ := i5 m h
              refine ⟨i + 1, key, by simpa using hkey, ?_⟩
              rw [hcnt]
              simp only [RunState.trace, hΔe]
              repeat rw [termPollCount_append]
              rw [termPollCount_of_onlyExtend Δe hOe]
              simp [termPollCount]
              omega
        · -- the current mapset equals the target: skip the copy
          rename_i hne
          have hstep3 : ({ st2 with trace := st2.trace ++
              [Event.messageStep st2.step steps m0 job.target_mapset_name] } :
              RunState).step = mergeCallCount ({ st2 with trace := st2.trace ++
              [Event.messageStep st2.step steps m0 job.target_mapset_name] } :
              RunState).trace + 1 := by
            simp only [RunState.step, RunState.trace]
            rw [he2]
            simp only [hΔe]
            repeat rw [mergeCallCount_append]
            rw [mergeCallCount_of_onlyExtend Δe hOe]
            simp [mergeCallCount, hstep]
          obtain ⟨i1, i2, ⟨Δr, hΔr, hOr⟩, i4, i5⟩ := ih _ hstep3
          refine ⟨by simpa [he1] using i1, i2,
            ⟨Event.termPoll (env.termination (termPollCount st.trace)) :: (Δe ++
              [Event.messageStep st2.step steps m0 job.target_mapset_name] ++ Δr),
              by rw [hΔr]; simp [hΔe], ?_⟩, i4, ?_⟩
          · intro e he
            rcases List.mem_cons.mp he with rfl | h
            · exact Or.inl ⟨_, rfl⟩
            rcases List.mem_append.mp h with h | h
            rcases List.mem_append.mp h with h | h
            · obtain ⟨a, b, c, rfl⟩ := hOe e h
              exact Or.inr (Or.inl ⟨_, _, _, rfl⟩)
            · simp at h
              subst h
              exact Or.inr (Or.inr (Or.inl ⟨_, _, _, _, rfl⟩))
            · exact hOr e h
          · intro m h
            obtain ⟨i, key, hkey, hcnt⟩ := i5 m h
            refine ⟨i + 1, key, by simpa using hkey, ?_⟩
            rw [hcnt]
            simp only [RunState.trace, hΔe]
            repeat rw [termPollCount_append]
            rw [termPollCount_of_onlyExtend Δe hOe]
            simp [termPollCount]
            omega

/-! ### Shape lemmas for final cleanup -/

theorem unlock_all_spec (env : Env) :
    ∀ (l : List (String × String)) (st : RunState),
      (unlock_all env st l).lock_ids = st.lock_ids ∧
      (unlock_all env st l).step = st.step ∧
      unlockKeysOf (unlock_all env st l).trace = unlockKeysOf st.trace ++ l.map Prod.fst ∧
      successfulLockCount (unlock_all env st l).trace = successfulLockCount st.trace ∧
      mergeCallCount (unlock_all env st l).trace = mergeCallCount st.trace := by
  intro l
  induction l with
  | nil => intro st; exact ⟨rfl, rfl, by simp [unlock_all], rfl, rfl⟩
  | cons p rest ih =>
    intro st
    obtain ⟨k, v⟩ := p
    simp only [unlock_all]
    obtain ⟨i1, i2, i3, i4, i5⟩ := ih { st with trace := st.trace ++
      [Event.unlockCall k (env.unlock_ok (unlockCallCount st.trace))] }
    refine ⟨i1, i2, ?_, ?_, ?_⟩
    · rw [i3]
      simp [unlockKeysOf_append, unlockKeysOf]
    · rw [i4]
      simp [successfulLockCount_append, successfulLockCount_singleton]
    · rw [i5]
      simp [mergeCallCount_append, mergeCallCount_singleton]

theorem final_cleanup_spec (env : Env) (st : RunState) :
    (final_cleanup env st).lock_ids = st.lock_ids ∧
    unlockKeysOf (final_cleanup env st).trace
      = unlockKeysOf st.trace ++ st.lock_ids.map Prod.fst ∧
    successfulLockCount (final_cleanup env st).trace = successfulLockCount st.trace ∧
    mergeCallCount (final_cleanup env st).trace = mergeCallCount st.trace := by
  unfold final_cleanup
  obtain ⟨i1, i2, i3, i4, i5⟩ := unlock_all_spec env st.lock_ids
    { st with trace := st.trace ++ [Event.teardown] }
  refine ⟨i1, ?_, ?_, ?_⟩
  · rw [i3]
    simp [unlockKeysOf_append, unlockKeysOf]
  · rw [i4]
    simp [successfulLockCount_append, successfulLockCount_singleton]
  · rw [i5]
    simp [mergeCallCount_append, mergeCallCount_singleton]

/-! ### Composition: the whole `_merge_mapsets` call -/

theorem mergeCall_not_mem_of_count_zero {tr : List Event} (h : mergeCallCount tr = 0)
    {s t : String} {ok : Bool} (hm : Event.mergeCall s t ok ∈ tr) : False := by
  simp only [mergeCallCount, List.countP_eq_zero] at h
  have := h _ hm
  simp at this

/-- Master lemma for `_merge_mapsets` started from the initial state: the
registry size always matches the number of successful lock calls, the merge
phase issues no unlock calls, the step counter is `0` before the loop phase
is reached and `merge-copy invocations + 1` afterwards, merge-copy
invocations never have the target as source, a termination outcome reports
the current step count and the source-list length, and a lease-loss outcome
names the mapset at the loop position reached. -/
theorem merge_mapsets_spec (env : Env) (job : MergeJob) :
    (merge_mapsets env job initState).1.lock_ids.length
      = successfulLockCount (merge_mapsets env job initState).1.trace ∧
    unlockKeysOf (merge_mapsets env job initState).1.trace = [] ∧
    ((merge_mapsets env job initState).1.step = 0 ∧
        mergeCallCount (merge_mapsets env job initState).1.trace = 0 ∧
        SourceLockOutcome (merge_mapsets env job initState).2 ∨
      (merge_mapsets env job initState).1.step
        = mergeCallCount (merge_mapsets env job initState).1.trace + 1) ∧
    (∀ s t ok, Event.mergeCall s t ok ∈ (merge_mapsets env job initState).1.trace →
      s ≠ job.target_mapset_name ∧ t = job.target_mapset_name) ∧
    (∀ k s2, (merge_mapsets env job initState).2 = some (Outcome.terminated k s2) →
      k = (merge_mapsets env job initState).1.step ∧ s2 = job.request_data.length) ∧
    (∀ m, (merge_mapsets env job initState).2 = some (Outcome.leaseLost m) →
      ∃ i key, (merge_mapsets env job initState).1.lock_ids[i]? = some (key, m) ∧
        termPollCount (merge_mapsets env job initState).1.trace = i + 1) ∧
    (∃ Δ, (merge_mapsets env job initState).1.trace
      = (check_lock_mapset env job initState job.target_mapset_name).1.trace ++ Δ) := by
  unfold merge_mapsets
  split
  · -- target locking failed
    rename_i st1 e1 htgt
    obtain ⟨⟨⟨Δ, hΔ, hP⟩, hs, hl⟩, ho⟩ := check_lock_mapset_spec env job initState
      job.target_mapset_name
    rw [htgt] at hΔ hs hl ho
    simp only [initState] at hΔ hs hl
    simp only at hΔ hs hl ho
    refine ⟨by simpa using hl, ?_, Or.inl ⟨by simpa using hs, ?_, Or.inl ho⟩,
      ?_, ?_, ?_, ⟨[], by rw [htgt]; simp⟩⟩
    · rw [hΔ]
      simpa using unlockKeysOf_of_lockPhase Δ hP
    · rw [hΔ]
      simpa using mergeCallCount_of_lockPhase Δ hP
    · intro s t ok hm
      rw [hΔ] at hm
      exfalso
      refine mergeCall_not_mem_of_count_zero ?_ hm
      simpa using mergeCallCount_of_lockPhase Δ hP
    · intro k s2 h
      rcases ho with h' | ⟨a, h'⟩ | ⟨a, h'⟩ <;> rw [h'] at h <;> simp at h
    · intro m h
      rcases ho with h' | ⟨a, h'⟩ | ⟨a, h'⟩ <;> rw [h'] at h <;> simp at h
  · -- target locked; source locking
    rename_i st1 htgt
    obtain ⟨⟨⟨Δ1, hΔ1, hP1⟩, hs1, hl1⟩, _⟩ := check_lock_mapset_spec env job initState
      job.target_mapset_name
    rw [htgt] at hΔ1 hs1 hl1
    simp only [initState] at hΔ1 hs1 hl1
    split
    · -- source locking failed
      rename_i st2 e2 hsrc
      obtain ⟨⟨⟨Δ2, hΔ2, hP2⟩, hs2, hl2⟩, ho2⟩ := check_lock_source_mapsets_spec env job st1
        job.request_data
      rw [hsrc] at hΔ2 hs2 hl2 ho2
      simp only at hΔ2 hs2 hl2 ho2
      have hΔ12 : st2.trace = Δ1 ++ Δ2 := by rw [hΔ2, hΔ1]; simp
      have hP12 : ∀ e ∈ Δ1 ++ Δ2, LockPhaseEvent e := by
        intro e he
        rcases List.mem_append.mp he with h | h
        · exact hP1 e h
        · exact hP2 e h
      refine ⟨?_, ?_, Or.inl ⟨?_, ?_, ho2⟩, ?_, ?_, ?_, ⟨Δ2, by rw [htgt]; exact hΔ2⟩⟩
      · have h1 : st1.lock_ids.length = successfulLockCount st1.trace := by
          simpa [successfulLockCount_nil] using hl1
        show st2.lock_ids.length = successfulLockCount st2.trace
        omega
      · rw [hΔ12]
        simpa using unlockKeysOf_of_lockPhase _ hP12
      · rw [hs2, hs1]
      · rw [hΔ12]
        simpa using mergeCallCount_of_lockPhase _ hP12
      · intro s t ok hm
        rw [hΔ12] at hm
        exfalso
        refine mergeCall_not_mem_of_count_zero ?_ hm
        simpa using mergeCallCount_of_lockPhase _ hP12
      · intro k s2 h
        rcases ho2 with (h' | ⟨a, h'⟩ | ⟨a, h'⟩) | h' <;> rw [h'] at h <;> simp at h
      · intro m h
        rcases ho2 with (h' | ⟨a, h'⟩ | ⟨a, h'⟩) | h' <;> rw [h'] at h <;> simp at h
    · -- both lock phases succeeded: the merge loop runs
      rename_i st2 hsrc
      obtain ⟨⟨⟨Δ2, hΔ2, hP2⟩, hs2, hl2⟩, _⟩ := check_lock_source_mapsets_spec env job st1
        job.request_data
      rw [hsrc] at hΔ2 hs2 hl2
      simp only at hΔ2 hs2 hl2
      have hΔ12 : st2.trace = Δ1 ++ Δ2 := by rw [hΔ2, hΔ1]; simp
      have hP12 : ∀ e ∈ Δ1 ++ Δ2, LockPhaseEvent e := by
        intro e he
        rcases List.mem_append.mp he with h | h
        · exact hP1 e h
        · exact hP2 e h
      have hmc0 : mergeCallCount st2.trace = 0 := by
        rw [hΔ12]
        exact mergeCallCount_of_lockPhase _ hP12
      have htp0 : termPollCount st2.trace = 0 := by
        rw [hΔ12]
        exact termPollCount_of_lockPhase _ hP12
      have hbal : st2.lock_ids.length = successfulLockCount st2.trace := by
        have h1 : st1.lock_ids.length = successfulLockCount st1.trace := by
          simpa [successfulLockCount_nil] using hl1
        omega
      have hstepin : ({ st2 with step := 1 } : RunState).step
          = mergeCallCount ({ st2 with step := 1 } : RunState).trace + 1 := by
        show 1 = mergeCallCount st2.trace + 1
        omega
      obtain ⟨m1, m2, ⟨Δm, hΔm, hPm⟩, m4, m5⟩ := merge_loop_spec env job
        job.request_data.length ({ st2 with step := 1 } : RunState).lock_ids
        { st2 with step := 1 } hstepin
      have hsLCm : successfulLockCount (merge_loop env job { st2 with step := 1 }
          job.request_data.length ({ st2 with step := 1 } : RunState).lock_ids).1.trace
          = successfulLockCount st2.trace := by
        rw [hΔm, successfulLockCount_append, successfulLockCount_of_mergeLoop _ _ hPm]
        simp
      refine ⟨?_, ?_, Or.inr m2, ?_, ?_, ?_, ⟨Δ2 ++ Δm, ?_⟩⟩
      · rw [hsLCm, m1]
        simpa using hbal
      · rw [hΔm, unlockKeysOf_append, unlockKeysOf_of_mergeLoop _ _ hPm]
        have : unlockKeysOf st2.trace = [] := by
          rw [hΔ12]
          exact unlockKeysOf_of_lockPhase _ hP12
        simpa using this
      · intro s t ok hm
        rw [hΔm] at hm
        rcases List.mem_append.mp hm with h | h
        · exact absurd h (fun h => mergeCall_not_mem_of_count_zero (by simpa using hmc0) h)
        · rcases hPm _ h with ⟨b, he⟩ | ⟨k, x, ok2, he⟩ | ⟨a, b, c, d, he⟩ | ⟨s2, ok2, he, hne⟩
          · exact absurd he (by simp)
          · exact absurd he (by simp)
          · exact absurd he (by simp)
          · injection he with hs ht hok
            subst hs
            exact ⟨hne, ht⟩
      · intro k s2 h
        obtain ⟨hk, hs⟩ := m4 k s2 h
        exact ⟨hk, hs⟩
      · intro m h
        obtain ⟨i, key, hkey, hcnt⟩ := m5 m h
        refine ⟨i, key, ?_, ?_⟩
        · rw [m1]
          simpa using hkey
        · rw [hcnt]
          simp only [RunState.trace]
          omega
      · rw [hΔm, htgt]
        show st2.trace ++ Δm = st1.trace ++ (Δ2 ++ Δm)
        rw [hΔ2]
        simp

/-! ### Concrete fixtures used by witnesses and counterexamples -/

/-- A benign environment: every mapset exists, no foreign lock holder, every
extension, merge and unlock succeeds, no termination is ever requested. -/
def envAll : Env :=
  { mapset_exists := fun _ => true, held_by_others := fun _ => false,
    extend_ok := fun _ => true, merge_ok := fun _ => true,
    termination := fun _ => false, unlock_ok := fun _ => true }

/-- The benign environment with every merge-copy invocation failing. -/
def envMergeFails : Env := { envAll with merge_ok := fun _ => false }

/-- The benign environment with every lease extension failing. -/
def envExtendFails : Env := { envAll with extend_ok := fun _ => false }

/-- The benign environment with termination requested from the start. -/
def envTermNow : Env := { envAll with termination := fun _ => true }

/-- Target mapset `A`, source mapsets `B` and `C`. -/
def jobBC : MergeJob :=
  { user_group := "g", location_name := "l", target_mapset_name := "A",
    request_data := ["B", "C"], process_time_limit := 10, process_num_limit := 3 }

/-- Target mapset `A`; the source list contains the target itself. -/
def jobSelf : MergeJob := { jobBC with request_data := ["A"] }

/-- Target mapset `A`; the source list is `["B", "A"]`. -/
def jobBSelf : MergeJob := { jobBC with request_data := ["B", "A"] }

/-- Target mapset `A`; the source list is empty. -/
def jobEmpty : MergeJob := { jobBC with request_data := [] }

/-! ### Claim theorems -/

/-- C1: for every run of the merge job — wherever it fails (lock
acquisition, extension, merge, or termination) — the number of unlock calls
issued during final cleanup equals the number of successful lock calls made
during the run. (The merge phase issues no unlock call, so the unlock calls
of the full trace are exactly those of the cleanup.) -/
theorem unlock_calls_balance_successful_lock_calls (env : Env) (job : MergeJob) :
    unlockCallCount (merge_mapsets env job initState).1.trace = 0 ∧
    unlockCallCount (run_job env job).1.trace
      = successfulLockCount (run_job env job).1.trace := by
  obtain ⟨hbal, hnou, _, _, _, _, _⟩ := merge_mapsets_spec env job
  obtain ⟨c1, c2, c3, c4⟩ := final_cleanup_spec env (merge_mapsets env job initState).1
  constructor
  · rw [unlockCallCount_eq_length_unlockKeysOf, hnou]
    rfl
  · show unlockCallCount (final_cleanup env (merge_mapsets env job initState).1).trace
      = successfulLockCount (final_cleanup env (merge_mapsets env job initState).1).trace
    rw [unlockCallCount_eq_length_unlockKeysOf, c2, c3, hnou]
    simpa using hbal

/-- C5: if the termination signal is observed at a step boundary and the job
aborts with the termination outcome reporting step `k` of `steps`, then
exactly `k - 1` merge-copy invocations happened, `k ≥ 1`, and the cleanup
that follows unlocks exactly the keys registered so far — which are as many
as the successful lock calls. -/
theorem termination_at_step_k_leaves_k_minus_one_merges (env : Env) (job : MergeJob)
    (st : RunState) (k steps : Nat)
    (h : merge_mapsets env job initState = (st, some (Outcome.terminated k steps))) :
    mergeCallCount st.trace = k - 1 ∧ 1 ≤ k ∧ steps = job.request_data.length ∧
    unlockKeysOf (final_cleanup env st).trace = st.lock_ids.map Prod.fst ∧
    st.lock_ids.length = successfulLockCount st.trace := by
  obtain ⟨hbal, hnou, hdisj, _, hterm, _, _⟩ := merge_mapsets_spec env job
  rw [h] at hbal hnou hdisj hterm
  simp only at hbal hnou hdisj hterm
  obtain ⟨hk, hsteps⟩ := hterm k steps rfl
  rcases hdisj with ⟨_, _, hso⟩ | hstep
  · rcases hso with (h' | ⟨a, h'⟩ | ⟨a, h'⟩) | h' <;> simp at h'
  · obtain ⟨c1, c2, c3, c4⟩ := final_cleanup_spec env st
    refine ⟨by omega, by omega, hsteps, ?_, hbal⟩
    rw [c2, hnou]
    simp

/-- C6: if a lease-extension call fails, the job aborts with the lease-lost
outcome, no merge-copy invocation has happened at the current step or later
(the invocation count is `step - 1`), and the outcome names exactly the
mapset of the registry entry the loop was processing (the entry at position
`i`, where `i + 1` termination polls have happened). -/
theorem lease_lost_names_current_mapset_and_stops_merges (env : Env) (job : MergeJob)
    (st : RunState) (m : String)
    (h : merge_mapsets env job initState = (st, some (Outcome.leaseLost m))) :
    mergeCallCount st.trace = st.step - 1 ∧ 1 ≤ st.step ∧
    (∃ i key, st.lock_ids[i]? = some (key, m) ∧ termPollCount st.trace = i + 1) := by
  obtain ⟨hbal, hnou, hdisj, _, _, hlease, _⟩ := merge_mapsets_spec env job
  rw [h] at hbal hnou hdisj hlease
  simp only at hbal hnou hdisj hlease
  rcases hdisj with ⟨_, _, hso⟩ | hstep
  · rcases hso with (h' | ⟨a, h'⟩ | ⟨a, h'⟩) | h' <;> simp at h'
  · exact ⟨by omega, by omega, hlease m rfl⟩

/-- C9: final cleanup issues one unlock call for every lease key present in
the lock registry, in registry order, for every environment — in particular
for environments in which any subset of the unlock calls fails, so one
failed unlock never prevents the remaining unlock attempts, and no unlock
result changes the run's outcome (cleanup returns normally by
construction). -/
theorem cleanup_unlocks_every_registered_key_best_effort (env : Env) (st : RunState) :
    unlockKeysOf (final_cleanup env st).trace
      = unlockKeysOf st.trace ++ st.lock_ids.map Prod.fst :=
  (final_cleanup_spec env st).2.1

/-- C10: one `_check_lock_mapset` call is atomic with respect to the lock
registry: on failure (missing mapset or refused lock) the registry is
unchanged; on success exactly the computed lease key is bound to the mapset
name and every other key keeps its previous binding. -/
theorem check_lock_mapset_atomic_registry_update (env : Env) (job : MergeJob)
    (st : RunState) (m : String) :
    ((check_lock_mapset env job st m).2 ≠ none →
      (check_lock_mapset env job st m).1.lock_ids = st.lock_ids) ∧
    ((check_lock_mapset env job st m).2 = none →
      (check_lock_mapset env job st m).1.lock_ids
        = dictSet st.lock_ids (lockIdOf job m) m ∧
      dictGet (check_lock_mapset env job st m).1.lock_ids (lockIdOf job m) = some m ∧
      ∀ k, k ≠ lockIdOf job m →
        dictGet (check_lock_mapset env job st m).1.lock_ids k = dictGet st.lock_ids k) := by
  unfold check_lock_mapset
  by_cases hf : env.mapset_exists m = false
  · simp [hf]
  · have hf' : env.mapset_exists m = true := by
      cases h : env.mapset_exists m
      · exact absurd h hf
      · rfl
    by_cases hok : (!env.held_by_others (lockIdOf job m)
        && !dictHasKey st.lock_ids (lockIdOf job m)) = false
    · simp [hf', hok]
    · have hok' : (!env.held_by_others (lockIdOf job m)
          && !dictHasKey st.lock_ids (lockIdOf job m)) = true := by
        cases h : (!env.held_by_others (lockIdOf job m)
            && !dictHasKey st.lock_ids (lockIdOf job m))
        · exact absurd h hok
        · rfl
      simp only [hf', hok']
      refine ⟨by simp, fun _ => ⟨by simp, ?_, ?_⟩⟩
      · simp [dictGet_dictSet_same]
      · intro k hk
        simp [dictGet_dictSet_other _ _ _ _ hk]

/-- Witness for C5 at a concrete input: with termination requested from the
start, the run on target `A`, sources `["B", "C"]` aborts at step 1 of 2
with zero merge-copy invocations, and cleanup unlocks the registered key. -/
theorem termination_at_step_k_witness :
    merge_mapsets envTermNow jobBC initState
      = ((merge_mapsets envTermNow jobBC initState).1, some (Outcome.terminated 1 2)) ∧
    mergeCallCount (merge_mapsets envTermNow jobBC initState).1.trace = 1 - 1 ∧ 1 ≤ 1 ∧
    2 = jobBC.request_data.length ∧
    unlockKeysOf (final_cleanup envTermNow (merge_mapsets envTermNow jobBC initState).1).trace
      = (merge_mapsets envTermNow jobBC initState).1.lock_ids.map Prod.fst ∧
    (merge_mapsets envTermNow jobBC initState).1.lock_ids.length
      = successfulLockCount (merge_mapsets envTermNow jobBC initState).1.trace := by
  refine ⟨by rfl, ?_⟩
  have h := termination_at_step_k_leaves_k_minus_one_merges envTermNow jobBC
    (merge_mapsets envTermNow jobBC initState).1 1 2 (by rfl)
  exact ⟨h.1, h.2.1, h.2.2.1, h.2.2.2.1, h.2.2.2.2⟩

/-- Witness for C6 at a concrete input: with every extension failing, the run
on target `A`, sources `["B", "C"]` aborts with the lease-lost outcome naming
`A` — the registry entry at position 0 — after one termination poll, with
zero merge-copy invocations. -/
theorem lease_lost_witness :
    merge_mapsets envExtendFails jobBC initState
      = ((merge_mapsets envExtendFails jobBC initState).1, some (Outcome.leaseLost "A")) ∧
    mergeCallCount (merge_mapsets envExtendFails jobBC initState).1.trace
      = (merge_mapsets envExtendFails jobBC initState).1.step - 1 ∧
    1 ≤ (merge_mapsets envExtendFails jobBC initState).1.step ∧
    (∃ i key, (merge_mapsets envExtendFails jobBC initState).1.lock_ids[i]? = some (key, "A") ∧
      termPollCount (merge_mapsets envExtendFails jobBC initState).1.trace = i + 1) := by
  refine ⟨by rfl, ?_⟩
  have h := lease_lost_names_current_mapset_and_stops_merges envExtendFails jobBC
    (merge_mapsets envExtendFails jobBC initState).1 "A" (by rfl)
  exact ⟨h.1, h.2.1, h.2.2⟩

/-- Witness for C10 at a concrete input: locking `B` in the benign
environment from the initial state succeeds and binds exactly `g/l/B`. -/
theorem check_lock_mapset_atomic_witness :
    (check_lock_mapset envAll jobBC initState "B").2 = none ∧
    dictGet (check_lock_mapset envAll jobBC initState "B").1.lock_ids
      (lockIdOf jobBC "B") = some "B" := by
  refine ⟨by rfl, ?_⟩
  exact ((check_lock_mapset_atomic_registry_update envAll jobBC initState "B").2 (by rfl)).2.1

/-- C7 (amended): in every run, either the locking phase failed and the loop
counter was never initialised (it is `0` and no merge-copy invocation
happened), or the counter equals the number of merge-copy invocations
(successful or not) plus one — it starts at `1`, is incremented immediately
before each merge-copy invocation (also one that then fails), and is not
incremented for the skipped entry whose mapset equals the target. -/
theorem step_counter_tracks_merge_invocations (env : Env) (job : MergeJob) :
    ((merge_mapsets env job initState).1.step = 0 ∧
      mergeCallCount (merge_mapsets env job initState).1.trace = 0) ∨
    ((merge_mapsets env job initState).1.step
        = mergeCallCount (merge_mapsets env job initState).1.trace + 1 ∧
      ∀ s t ok, Event.mergeCall s t ok ∈ (merge_mapsets env job initState).1.trace →
        s ≠ job.target_mapset_name) := by
  obtain ⟨_, _, hdisj, hsrc, _, _, _⟩ := merge_mapsets_spec env job
  rcases hdisj with ⟨h1, h2, _⟩ | h
  · exact Or.inl ⟨h1, h2⟩
  · exact Or.inr ⟨h, fun s t ok hm => (hsrc s t ok hm).1⟩

/-- Counterexample to C7 as stated: on target `A`, sources `["B", "C"]` with
the merge executor failing, the run aborts at the failed copy of `B`, yet
the step counter has already advanced to `2` although zero merge-copy
invocations succeeded — so the counter is not "incremented only after a
successful merge-copy invocation". -/
theorem step_counter_incremented_before_failed_merge :
    (merge_mapsets envMergeFails jobBC initState).2
      = some (Outcome.mergeFailed "B" "A") ∧
    (merge_mapsets envMergeFails jobBC initState).1.step = 2 ∧
    successfulMergeCount (merge_mapsets envMergeFails jobBC initState).1.trace = 0 := by
  refine ⟨by rfl, by rfl, by rfl⟩

/-- If locking the target fails, `_merge_mapsets` returns that failure
directly: nothing else runs. -/
theorem merge_mapsets_short_circuits_on_target_failure (env : Env) (job : MergeJob)
    (e : Outcome)
    (h : (check_lock_mapset env job initState job.target_mapset_name).2 = some e) :
    merge_mapsets env job initState
      = check_lock_mapset env job initState job.target_mapset_name := by
  unfold merge_mapsets
  split
  · rename_i st1 e1 htgt
    rw [htgt]
  · rename_i st1 htgt
    rw [htgt] at h
    simp at h

/-- C8: in every run the trace begins with the existence check of the target
mapset followed — when the target exists — by the lock call for the target's
lease key; every existence check or lock call for a source mapset comes
strictly later in the trace. If the target is missing or its lock refused,
the trace consists of those target events alone. -/
theorem target_locked_before_any_source_event (env : Env) (job : MergeJob) :
    (env.mapset_exists job.target_mapset_name = false →
      (merge_mapsets env job initState).1.trace
        = [Event.existCheck job.target_mapset_name false]) ∧
    (env.mapset_exists job.target_mapset_name = true →
      env.held_by_others (lockIdOf job job.target_mapset_name) = true →
      (merge_mapsets env job initState).1.trace
        = [Event.existCheck job.target_mapset_name true,
           Event.lockCall (lockIdOf job job.target_mapset_name) job.target_mapset_name
             (job.process_time_limit * job.process_num_limit) false]) ∧
    (env.mapset_exists job.target_mapset_name = true →
      env.held_by_others (lockIdOf job job.target_mapset_name) = false →
      ∃ rest, (merge_mapsets env job initState).1.trace
        = Event.existCheck job.target_mapset_name true
          :: Event.lockCall (lockIdOf job job.target_mapset_name) job.target_mapset_name
             (job.process_time_limit * job.process_num_limit) true :: rest) := by
  refine ⟨?_, ?_, ?_⟩
  · intro hf
    have hsc := merge_mapsets_short_circuits_on_target_failure env job
      (Outcome.resourceNotFound job.target_mapset_name)
      (by simp [check_lock_mapset, initState, hf])
    rw [hsc]
    simp [check_lock_mapset, initState, hf]
  · intro hf hh
    have hsc := merge_mapsets_short_circuits_on_target_failure env job
      (Outcome.lockConflict job.target_mapset_name)
      (by simp [check_lock_mapset, initState, dictHasKey, hf, hh])
    rw [hsc]
    simp [check_lock_mapset, initState, dictHasKey, hf, hh]
  · intro hf hh
    obtain ⟨_, _, _, _, _, _, Δ, hΔ⟩ := merge_mapsets_spec env job
    refine ⟨Δ, ?_⟩
    rw [hΔ]
    simp [check_lock_mapset, initState, dictHasKey, hf, hh]

/-- Witness for C8 at a concrete input: in the benign environment on target
`A`, sources `["B", "C"]`, the trace starts with the existence check and the
successful lock call for `A`. -/
theorem target_locked_before_any_source_event_witness :
    ∃ rest, (merge_mapsets envAll jobBC initState).1.trace
      = Event.existCheck "A" true
        :: Event.lockCall (lockIdOf jobBC "A") "A" (10 * 3) true :: rest :=
  (target_locked_before_any_source_event envAll jobBC).2.2 (by rfl) (by rfl)

/-! ### Lease-key injectivity -/

theorem string_append_left_cancel {p a b : String} (h : p ++ a = p ++ b) : a = b := by
  have hd := congrArg String.data h
  simp only [String.data_append] at hd
  have h2 : a.data = b.data := List.append_cancel_left hd
  exact String.ext h2

/-- Within one job, distinct mapset names always get distinct lease keys:
the key is the fixed `group/location/` prefix followed by the name. -/
theorem lockIdOf_inj (job : MergeJob) {a b : String}
    (h : lockIdOf job a = lockIdOf job b) : a = b := by
  unfold lockIdOf at h
  exact string_append_left_cancel h

/-- Counterexample to C3 as stated: on target `A` with an empty source list,
the run does issue a lock call — a successful one, for the target — before
failing with the empty-source-list error. -/
theorem empty_source_list_still_locks_target :
    (merge_mapsets envAll jobEmpty initState).2 = some Outcome.emptySourceList ∧
    lockCallsOf (merge_mapsets envAll jobEmpty initState).1.trace = [("A", true)] := by
  exact ⟨by rfl, by rfl⟩

/-- C3 (amended): for a job whose source list is empty, the target mapset is
checked and locked first; only then does the empty-list check fail the run
with the empty-source-list error. Exactly one lock call — for the target —
occurs, and cleanup unlocks exactly the target's lease key. -/
theorem empty_source_list_locks_target_then_fails (env : Env) (job : MergeJob)
    (hempty : job.request_data = [])
    (hex : env.mapset_exists job.target_mapset_name = true)
    (hh : env.held_by_others (lockIdOf job job.target_mapset_name) = false) :
    (merge_mapsets env job initState).2 = some Outcome.emptySourceList ∧
    lockCallsOf (merge_mapsets env job initState).1.trace
      = [(job.target_mapset_name, true)] ∧
    unlockKeysOf (run_job env job).1.trace = [lockIdOf job job.target_mapset_name] := by
  have hc : check_lock_mapset env job initState job.target_mapset_name
      = ({ lock_ids := [(lockIdOf job job.target_mapset_name, job.target_mapset_name)],
           step := 0,
           trace := [Event.existCheck job.target_mapset_name true,
             Event.lockCall (lockIdOf job job.target_mapset_name) job.target_mapset_name
               (job.process_time_limit * job.process_num_limit) true] }, none) := by
    simp [check_lock_mapset, initState, dictHasKey, dictSet, hex, hh]
  have hm : merge_mapsets env job initState
      = ({ lock_ids := [(lockIdOf job job.target_mapset_name, job.target_mapset_name)],
           step := 0,
           trace := [Event.existCheck job.target_mapset_name true,
             Event.lockCall (lockIdOf job job.target_mapset_name) job.target_mapset_name
               (job.process_time_limit * job.process_num_limit) true] },
         some Outcome.emptySourceList) := by
    unfold merge_mapsets
    rw [hc]
    simp [check_lock_source_mapsets, hempty]
  refine ⟨by rw [hm], by rw [hm]; simp [lockCallsOf], ?_⟩
  show unlockKeysOf (final_cleanup env (merge_mapsets env job initState).1).trace
    = [lockIdOf job job.target_mapset_name]
  rw [(final_cleanup_spec env (merge_mapsets env job initState).1).2.1, hm]
  simp [unlockKeysOf]

/-- Witness for the amended C3 at a concrete input: benign environment,
target `A`, empty source list. -/
theorem empty_source_list_witness :
    jobEmpty.request_data = [] ∧
    (merge_mapsets envAll jobEmpty initState).2 = some Outcome.emptySourceList ∧
    lockCallsOf (merge_mapsets envAll jobEmpty initState).1.trace
      = [(jobEmpty.target_mapset_name, true)] ∧
    unlockKeysOf (run_job envAll jobEmpty).1.trace = [lockIdOf jobEmpty "A"] := by
  refine ⟨by rfl, ?_⟩
  have h := empty_source_list_locks_target_then_fails envAll jobEmpty
    (by rfl) (by rfl) (by rfl)
  exact ⟨h.1, h.2.1, h.2.2⟩

/-! ### Locking a source list that contains the target -/

theorem dictGet_append_left (l l' : List (String × String)) (k v : String)
    (h : dictGet l k = some v) : dictGet (l ++ l') k = some v := by
  induction l with
  | nil => simp [dictGet] at h
  | cons p rest ih =>
    obtain ⟨a, b⟩ := p
    by_cases ha : a = k
    · simpa [dictGet, ha] using h
    · simp only [dictGet, ha, if_neg ha, List.cons_append] at h ⊢
      exact ih h

/-- Locking the sources of a list that contains the target mapset, in an
environment where every mapset exists and no foreign holder interferes,
fails with a lock conflict naming the target: its lease key is already in
the registry (the lock service refuses a key that is already held). Earlier
distinct sources lock fine and stay registered; no merge-copy happens. -/
theorem lock_sources_conflict_on_target (env : Env) (job : MergeJob)
    (hex : ∀ m, env.mapset_exists m = true)
    (hh : ∀ k, env.held_by_others k = false) :
    ∀ (names : List String) (st : RunState),
      job.target_mapset_name ∈ names → names.Nodup →
      dictHasKey st.lock_ids (lockIdOf job job.target_mapset_name) = true →
      (∀ m ∈ names, m ≠ job.target_mapset_name →
        dictHasKey st.lock_ids (lockIdOf job m) = false) →
      (lock_sources env job st names).2
          = some (Outcome.lockConflict job.target_mapset_name) ∧
      mergeCallCount (lock_sources env job st names).1.trace = mergeCallCount st.trace ∧
      ∃ suffix, (lock_sources env job st names).1.lock_ids = st.lock_ids ++ suffix := by
  intro names
  induction names with
  | nil =>
    intro st htm
    simp at htm
  | cons m rest ih =>
    intro st htm hnd hkt hfresh
    by_cases hm : m = job.target_mapset_name
    · subst hm
      simp only [lock_sources]
      rw [show check_lock_mapset env job st job.target_mapset_name
          = ({ st with trace := st.trace ++ [Event.existCheck job.target_mapset_name true,
               Event.lockCall (lockIdOf job job.target_mapset_name) job.target_mapset_name
                 (job.process_time_limit * job.process_num_limit) false] },
             some (Outcome.lockConflict job.target_mapset_name)) from by
        simp [check_lock_mapset, hex, hh, hkt]]
      refine ⟨rfl, ?_, ⟨[], by simp⟩⟩
      simp [mergeCallCount_append, mergeCallCount_cons, mergeCallCount_nil]
    · have htm' : job.target_mapset_name ∈ rest := by
        rcases List.mem_cons.mp htm with h | h
        · exact absurd h.symm hm
        · exact h
      have hnd' := List.nodup_cons.mp hnd
      have hkm : dictHasKey st.lock_ids (lockIdOf job m) = false :=
        hfresh m (List.mem_cons_self m rest) hm
      have hset : dictSet st.lock_ids (lockIdOf job m) m
          = st.lock_ids ++ [(lockIdOf job m, m)] := dictSet_of_not_hasKey _ _ _ hkm
      simp only [lock_sources]
      rw [show check_lock_mapset env job st m = ({ st with
          lock_ids := dictSet st.lock_ids (lockIdOf job m) m,
          trace := st.trace ++ [Event.existCheck m true,
            Event.lockCall (lockIdOf job m) m
              (job.process_time_limit * job.process_num_limit) true] }, none) from by
        simp [check_lock_mapset, hex, hh, hkm]]
      have hkt' : dictHasKey (dictSet st.lock_ids (lockIdOf job m) m)
          (lockIdOf job job.target_mapset_name) = true := by
        rw [hset, dictHasKey_append, hkt]
        simp
      have hfresh' : ∀ m' ∈ rest, m' ≠ job.target_mapset_name →
          dictHasKey (dictSet st.lock_ids (lockIdOf job m) m)
            (lockIdOf job m') = false := by
        intro m' hm' hne
        have hmm' : m ≠ m' := fun h => hnd'.1 (h ▸ hm')
        have hkk : lockIdOf job m ≠ lockIdOf job m' :=
          fun h => hmm' (lockIdOf_inj job h)
        rw [hset, dictHasKey_append, hfresh m' (List.mem_cons_of_mem m hm') hne]
        simp [dictHasKey, hkk]
      obtain ⟨o1, o2, suf, o3⟩ := ih { st with
          lock_ids := dictSet st.lock_ids (lockIdOf job m) m,
          trace := st.trace ++ [Event.existCheck m true,
            Event.lockCall (lockIdOf job m) m
              (job.process_time_limit * job.process_num_limit) true] }
        htm' hnd'.2 hkt' hfresh'
      refine ⟨o1, ?_, ?_⟩
      · rw [o2]
        simp [mergeCallCount_append, mergeCallCount_cons, mergeCallCount_nil]
      · refine ⟨(lockIdOf job m, m) :: suf, ?_⟩
        rw [o3]
        show dictSet st.lock_ids (lockIdOf job m) m ++ suf = _
        rw [hset]
        simp

/-- Counterexample to C2 as stated: on target `A` with source list `["A"]`
in the benign environment, the element equal to the target is not "still
locked": its lock call is refused (the key is already held by the job's own
target lock) and the run fails with a lock conflict, producing no merge-copy
invocation. -/
theorem self_source_fails_run :
    (merge_mapsets envAll jobSelf initState).2 = some (Outcome.lockConflict "A") ∧
    lockCallsOf (merge_mapsets envAll jobSelf initState).1.trace
      = [("A", true), ("A", false)] ∧
    mergeCallsOf (merge_mapsets envAll jobSelf initState).1.trace = [] := by
  exact ⟨by rfl, by rfl, by rfl⟩

/-- C2 (amended): for a job whose (duplicate-free) source list contains the
target mapset name, the lock call for that element fails — the target's
lease key is already held by this very job — and the run aborts with a lock
conflict naming the target, before any merge-copy invocation. The target
stays registered under its key and its key is among those unlocked during
cleanup. -/
theorem self_source_causes_lock_conflict (env : Env) (job : MergeJob)
    (htm : job.target_mapset_name ∈ job.request_data)
    (hnd : job.request_data.Nodup)
    (hex : ∀ m, env.mapset_exists m = true)
    (hh : ∀ k, env.held_by_others k = false) :
    (merge_mapsets env job initState).2
        = some (Outcome.lockConflict job.target_mapset_name) ∧
    mergeCallCount (merge_mapsets env job initState).1.trace = 0 ∧
    dictGet (merge_mapsets env job initState).1.lock_ids
        (lockIdOf job job.target_mapset_name) = some job.target_mapset_name ∧
    lockIdOf job job.target_mapset_name ∈ unlockKeysOf (run_job env job).1.trace := by
  have hc : check_lock_mapset env job initState job.target_mapset_name
      = ({ lock_ids := [(lockIdOf job job.target_mapset_name, job.target_mapset_name)],
           step := 0,
           trace := [Event.existCheck job.target_mapset_name true,
             Event.lockCall (lockIdOf job job.target_mapset_name) job.target_mapset_name
               (job.process_time_limit * job.process_num_limit) true] }, none) := by
    simp [check_lock_mapset, initState, dictHasKey, dictSet, hex, hh]
  have hlen : ¬job.request_data.length = 0 := by
    cases hr : job.request_data
    · rw [hr] at htm; simp at htm
    · simp
  have hsrc : check_lock_source_mapsets env job
      ({ lock_ids := [(lockIdOf job job.target_mapset_name, job.target_mapset_name)],
         step := 0,
         trace := [Event.existCheck job.target_mapset_name true,
           Event.lockCall (lockIdOf job job.target_mapset_name) job.target_mapset_name
             (job.process_time_limit * job.process_num_limit) true] } : RunState)
      job.request_data
      = lock_sources env job
        { lock_ids := [(lockIdOf job job.target_mapset_name, job.target_mapset_name)],
          step := 0,
          trace := [Event.existCheck job.target_mapset_name true,
            Event.lockCall (lockIdOf job job.target_mapset_name) job.target_mapset_name
              (job.process_time_limit * job.process_num_limit) true] }
        job.request_data := by
    simp [check_lock_source_mapsets, hlen]
  have hfresh0 : ∀ m' ∈ job.request_data, m' ≠ job.target_mapset_name →
      dictHasKey ([(lockIdOf job job.target_mapset_name, job.target_mapset_name)] :
        List (String × String)) (lockIdOf job m') = false := by
    intro m' hm' hne
    have hkk : lockIdOf job job.target_mapset_name ≠ lockIdOf job m' :=
      fun h => hne (lockIdOf_inj job h).symm
    simp [dictHasKey]
    exact hkk
  obtain ⟨o1, o2, suf, o3⟩ := lock_sources_conflict_on_target env job hex hh
    job.request_data
    { lock_ids := [(lockIdOf job job.target_mapset_name, job.target_mapset_name)],
      step := 0,
      trace := [Event.existCheck job.target_mapset_name true,
        Event.lockCall (lockIdOf job job.target_mapset_name) job.target_mapset_name
          (job.process_time_limit * job.process_num_limit) true] }
    htm hnd (by simp [dictHasKey]) hfresh0
  have hmm : merge_mapsets env job initState
      = lock_sources env job
        { lock_ids := [(lockIdOf job job.target_mapset_name, job.target_mapset_name)],
          step := 0,
          trace := [Event.existCheck job.target_mapset_name true,
            Event.lockCall (lockIdOf job job.target_mapset_name) job.target_mapset_name
              (job.process_time_limit * job.process_num_limit) true] }
        job.request_data := by
    unfold merge_mapsets
    rw [hc]
    simp only [hsrc]
    split
    · rename_i st2 e2 hs
      rw [hs]
    · rename_i st2 hs
      rw [hs] at o1
      simp at o1
  refine ⟨by rw [hmm]; exact o1, ?_, ?_, ?_⟩
  · rw [hmm, o2]
    simp [mergeCallCount_cons, mergeCallCount_nil]
  · rw [hmm, o3]
    exact dictGet_append_left _ _ _ _ (by simp [dictGet])
  · show lockIdOf job job.target_mapset_name
      ∈ unlockKeysOf (final_cleanup env (merge_mapsets env job initState).1).trace
    rw [(final_cleanup_spec env (merge_mapsets env job initState).1).2.1]
    refine List.mem_append.mpr (Or.inr ?_)
    rw [hmm, o3]
    simp

/-- Witness for the amended C2 at a concrete input: benign environment,
target `A`, source list `["B", "A"]`. -/
theorem self_source_causes_lock_conflict_witness :
    jobBSelf.target_mapset_name ∈ jobBSelf.request_data ∧
    jobBSelf.request_data.Nodup ∧
    (merge_mapsets envAll jobBSelf initState).2 = some (Outcome.lockConflict "A") ∧
    mergeCallCount (merge_mapsets envAll jobBSelf initState).1.trace = 0 ∧
    lockIdOf jobBSelf "A" ∈ unlockKeysOf (run_job envAll jobBSelf).1.trace := by
  refine ⟨by decide, by decide, ?_⟩
  have h := self_source_causes_lock_conflict envAll jobBSelf (by decide) (by decide)
    (fun _ => rfl) (fun _ => rfl)
  exact ⟨h.1, h.2.1, h.2.2.2⟩

/-! ### The fully successful run -/

/-- The mapset names of the registry entries that are not the target — the
entries for which the loop performs a merge copy. -/
def nonSelfEntries (target : String) : List (String × String) → List String
  | [] => []
  | (_, m) :: rest =>
    if m = target then nonSelfEntries target rest else m :: nonSelfEntries target rest

theorem nonSelfEntries_map_of_ne (job : MergeJob) :
    ∀ (names : List String), (∀ m ∈ names, m ≠ job.target_mapset_name) →
      nonSelfEntries job.target_mapset_name
        (names.map (fun m => (lockIdOf job m, m))) = names := by
  intro names
  induction names with
  | nil => intro _; rfl
  | cons m rest ih =>
    intro h
    have hm : m ≠ job.target_mapset_name := h m (List.mem_cons_self m rest)
    simp only [List.map_cons, nonSelfEntries, if_neg hm]
    rw [ih (fun m' hm' => h m' (List.mem_cons_of_mem m hm'))]

theorem nonSelfEntries_target_cons_map (job : MergeJob) (k0 : String)
    (names : List String) (h : ∀ m ∈ names, m ≠ job.target_mapset_name) :
    nonSelfEntries job.target_mapset_name
      ((k0, job.target_mapset_name) :: names.map (fun m => (lockIdOf job m, m)))
      = names := by
  have hhead : nonSelfEntries job.target_mapset_name
      ((k0, job.target_mapset_name) :: names.map (fun m => (lockIdOf job m, m)))
      = nonSelfEntries job.target_mapset_name
        (names.map (fun m => (lockIdOf job m, m))) := by
    simp [nonSelfEntries]
  rw [hhead]
  exact nonSelfEntries_map_of_ne job names h

/-- With every lease extension succeeding, the extension pass never fails
and leaves registry, step counter and trace projections untouched. -/
theorem extend_all_all_ok (env : Env) (job : MergeJob) (m : String)
    (hext : ∀ n, env.extend_ok n = true) :
    ∀ (keys : List String) (st : RunState),
      (extend_all env job st m keys).2 = none ∧
      mergeCallsOf (extend_all env job st m keys).1.trace = mergeCallsOf st.trace ∧
      lockCallsOf (extend_all env job st m keys).1.trace = lockCallsOf st.trace ∧
      (extend_all env job st m keys).1.lock_ids = st.lock_ids ∧
      (extend_all env job st m keys).1.step = st.step := by
  intro keys
  induction keys with
  | nil => intro st; exact ⟨rfl, rfl, rfl, rfl, rfl⟩
  | cons k rest ih =>
    intro st
    simp only [extend_all, hext (extendCallCount st.trace)]
    simp only [show (true = false) = False by simp, if_false]
    obtain ⟨i1, i2, i3, i4, i5⟩ := ih { st with trace := st.trace ++
      [Event.extendCall k (job.process_time_limit * 2) true] }
    refine ⟨i1, ?_, ?_, i4, i5⟩
    · rw [i2]
      simp [mergeCallsOf_append, mergeCallsOf]
    · rw [i3]
      simp [lockCallsOf_append, lockCallsOf]

/-- With no termination request and all extensions and merges succeeding,
the merge loop completes, appending exactly one successful merge-copy
invocation per non-target registry entry, in order, and no lock call. -/
theorem merge_loop_all_ok (env : Env) (job : MergeJob) (steps : Nat)
    (hext : ∀ n, env.extend_ok n = true)
    (hmrg : ∀ n, env.merge_ok n = true)
    (htrm : ∀ n, env.termination n = false) :
    ∀ (entries : List (String × String)) (st : RunState),
      (merge_loop env job st steps entries).2 = none ∧
      mergeCallsOf (merge_loop env job st steps entries).1.trace
        = mergeCallsOf st.trace
          ++ (nonSelfEntries job.target_mapset_name entries).map
              (fun s => (s, job.target_mapset_name, true)) ∧
      lockCallsOf (merge_loop env job st steps entries).1.trace
        = lockCallsOf st.trace := by
  intro entries
  induction entries with
  | nil =>
    intro st
    exact ⟨rfl, by simp [merge_loop, nonSelfEntries], rfl⟩
  | cons p rest ih =>
    intro st
    obtain ⟨k0, m0⟩ := p
    simp only [merge_loop, htrm (termPollCount st.trace)]
    simp only [show (false = true) = False by simp, if_false]
    split
    · rename_i st2 ex hs
      exfalso
      have h := (extend_all_all_ok env job m0 hext (st.lock_ids.map Prod.fst)
        { st with trace := st.trace ++ [Event.termPoll false] }).1
      rw [hs] at h
      simp at h
    · rename_i st2 hs
      obtain ⟨e1, e2, e3, e4, e5⟩ := extend_all_all_ok env job m0 hext
        (st.lock_ids.map Prod.fst) { st with trace := st.trace ++ [Event.termPoll false] }
      rw [hs] at e2 e3 e4 e5
      simp only at e2 e3 e4 e5
      have he2 : mergeCallsOf st2.trace = mergeCallsOf st.trace := by
        rw [e2]
        simp [mergeCallsOf_append, mergeCallsOf]
      have he3 : lockCallsOf st2.trace = lockCallsOf st.trace := by
        rw [e3]
        simp [lockCallsOf_append, lockCallsOf]
      by_cases hm : m0 = job.target_mapset_name
      · simp only [hm, ne_eq, not_true_eq_false, if_false, ite_false]
        obtain ⟨i1, i2, i3⟩ := ih { st2 with trace := st2.trace ++
          [Event.messageStep st2.step steps job.target_mapset_name job.target_mapset_name] }
        refine ⟨i1, ?_, ?_⟩
        · rw [i2]
          simp only [RunState.trace, mergeCallsOf_append, he2]
          simp [mergeCallsOf, nonSelfEntries, hm]
        · rw [i3]
          simp only [RunState.trace, lockCallsOf_append, he3]
          simp [lockCallsOf]
      · simp only [ne_eq, hm, not_false_eq_true, if_true, ite_true,
          hmrg (mergeCallCount (st2.trace
            ++ [Event.messageStep st2.step steps m0 job.target_mapset_name]))]
        simp only [show (true = false) = False by simp, if_false]
        obtain ⟨i1, i2, i3⟩ := ih { st2 with
          step := st2.step + 1,
          trace := (st2.trace ++ [Event.messageStep st2.step steps m0 job.target_mapset_name])
            ++ [Event.mergeCall m0 job.target_mapset_name true] }
        refine ⟨i1, ?_, ?_⟩
        · rw [i2]
          simp only [RunState.trace, mergeCallsOf_append, he2]
          simp [mergeCallsOf, nonSelfEntries, hm]
        · rw [i3]
          simp only [RunState.trace, lockCallsOf_append, he3]
          simp [lockCallsOf]

/-- Locking a duplicate-free list of mapsets whose keys are all fresh, in an
environment where every mapset exists and nobody else holds locks, succeeds,
appends one registry entry and one successful lock call per name in order,
and performs no merge-copy invocation. -/
theorem lock_sources_all_fresh (env : Env) (job : MergeJob)
    (hex : ∀ m, env.mapset_exists m = true)
    (hh : ∀ k, env.held_by_others k = false) :
    ∀ (names : List String) (st : RunState),
      names.Nodup →
      (∀ m ∈ names, dictHasKey st.lock_ids (lockIdOf job m) = false) →
      (lock_sources env job st names).2 = none ∧
      (lock_sources env job st names).1.lock_ids
        = st.lock_ids ++ names.map (fun m => (lockIdOf job m, m)) ∧
      lockCallsOf (lock_sources env job st names).1.trace
        = lockCallsOf st.trace ++ names.map (fun m => (m, true)) ∧
      mergeCallsOf (lock_sources env job st names).1.trace = mergeCallsOf st.trace ∧
      (lock_sources env job st names).1.step = st.step := by
  intro names
  induction names with
  | nil =>
    intro st _ _
    exact ⟨rfl, by simp [lock_sources], by simp [lock_sources], rfl, rfl⟩
  | cons m rest ih =>
    intro st hnd hfresh
    have hnd' := List.nodup_cons.mp hnd
    have hkm : dictHasKey st.lock_ids (lockIdOf job m) = false :=
      hfresh m (List.mem_cons_self m rest)
    have hset : dictSet st.lock_ids (lockIdOf job m) m
        = st.lock_ids ++ [(lockIdOf job m, m)] := dictSet_of_not_hasKey _ _ _ hkm
    simp only [lock_sources]
    rw [show check_lock_mapset env job st m = ({ st with
        lock_ids := dictSet st.lock_ids (lockIdOf job m) m,
        trace := st.trace ++ [Event.existCheck m true,
          Event.lockCall (lockIdOf job m) m
            (job.process_time_limit * job.process_num_limit) true] }, none) from by
      simp [check_lock_mapset, hex, hh, hkm]]
    have hfresh' : ∀ m' ∈ rest, dictHasKey (dictSet st.lock_ids (lockIdOf job m) m)
        (lockIdOf job m') = false := by
      intro m' hm'
      have hmm' : m ≠ m' := fun h => hnd'.1 (h ▸ hm')
      have hkk : ¬lockIdOf job m = lockIdOf job m' :=
        fun h => hmm' (lockIdOf_inj job h)
      rw [hset, dictHasKey_append, hfresh m' (List.mem_cons_of_mem m hm')]
      simp [dictHasKey]
      exact hkk
    obtain ⟨o1, o2, o3, o4, o5⟩ := ih { st with
        lock_ids := dictSet st.lock_ids (lockIdOf job m) m,
        trace := st.trace ++ [Event.existCheck m true,
          Event.lockCall (lockIdOf job m) m
            (job.process_time_limit * job.process_num_limit) true] }
      hnd'.2 hfresh'
    refine ⟨o1, ?_, ?_, ?_, o5⟩
    · rw [o2]
      show dictSet st.lock_ids (lockIdOf job m) m ++ _ = _
      rw [hset]
      simp
    · rw [o3]
      show lockCallsOf (st.trace ++ [Event.existCheck m true,
        Event.lockCall (lockIdOf job m) m
          (job.process_time_limit * job.process_num_limit) true]) ++ _ = _
      simp [lockCallsOf_append, lockCallsOf]
    · rw [o4]
      show mergeCallsOf (st.trace ++ [Event.existCheck m true,
        Event.lockCall (lockIdOf job m) m
          (job.process_time_limit * job.process_num_limit) true]) = _
      simp [mergeCallsOf_append, mergeCallsOf]

/-- C4: for every valid job with duplicate-free source mapsets, none equal
to the target, a run in which the target and all sources exist, no other
holder interferes, every lock, extension and merge succeeds and no
termination is requested, returns normally and issues exactly one successful
lock call for the target followed by one per source in list order, and
exactly one successful merge-copy invocation per source, in source-list
order (the target's own registry entry is skipped). -/
theorem successful_run_locks_and_merges_in_order (env : Env) (job : MergeJob)
    (hne : job.request_data ≠ [])
    (hnd : job.request_data.Nodup)
    (hnt : job.target_mapset_name ∉ job.request_data)
    (hex : ∀ m, env.mapset_exists m = true)
    (hh : ∀ k, env.held_by_others k = false)
    (hext : ∀ n, env.extend_ok n = true)
    (hmrg : ∀ n, env.merge_ok n = true)
    (htrm : ∀ n, env.termination n = false) :
    (merge_mapsets env job initState).2 = none ∧
    lockCallsOf (merge_mapsets env job initState).1.trace
      = (job.target_mapset_name :: job.request_data).map (fun m => (m, true)) ∧
    mergeCallsOf (merge_mapsets env job initState).1.trace
      = job.request_data.map (fun s => (s, job.target_mapset_name, true)) := by
  have hc : check_lock_mapset env job initState job.target_mapset_name
      = ({ lock_ids := [(lockIdOf job job.target_mapset_name, job.target_mapset_name)],
           step := 0,
           trace := [Event.existCheck job.target_mapset_name true,
             Event.lockCall (lockIdOf job job.target_mapset_name) job.target_mapset_name
               (job.process_time_limit * job.process_num_limit) true] }, none) := by
    simp [check_lock_mapset, initState, dictHasKey, dictSet, hex, hh]
  have hlen : ¬job.request_data.length = 0 := by
    cases hr : job.request_data
    · exact absurd hr hne
    · simp
  have hsrc : check_lock_source_mapsets env job
      ({ lock_ids := [(lockIdOf job job.target_mapset_name, job.target_mapset_name)],
         step := 0,
         trace := [Event.existCheck job.target_mapset_name true,
           Event.lockCall (lockIdOf job job.target_mapset_name) job.target_mapset_name
             (job.process_time_limit * job.process_num_limit) true] } : RunState)
      job.request_data
      = lock_sources env job
        { lock_ids := [(lockIdOf job job.target_mapset_name, job.target_mapset_name)],
          step := 0,
          trace := [Event.existCheck job.target_mapset_name true,
            Event.lockCall (lockIdOf job job.target_mapset_name) job.target_mapset_name
              (job.process_time_limit * job.process_num_limit) true] }
        job.request_data := by
    simp [check_lock_source_mapsets, hlen]
  have hsrcfresh : ∀ m ∈ job.request_data,
      dictHasKey ([(lockIdOf job job.target_mapset_name, job.target_mapset_name)] :
        List (String × String)) (lockIdOf job m) = false := by
    intro m hm
    have hmt : m ≠ job.target_mapset_name := fun h => hnt (h ▸ hm)
    have hkk : ¬lockIdOf job job.target_mapset_name = lockIdOf job m :=
      fun h => hmt (lockIdOf_inj job h).symm
    simp [dictHasKey]
    exact hkk
  obtain ⟨o1, o2, o3, o4, o5⟩ := lock_sources_all_fresh env job hex hh job.request_data
    { lock_ids := [(lockIdOf job job.target_mapset_name, job.target_mapset_name)],
      step := 0,
      trace := [Event.existCheck job.target_mapset_name true,
        Event.lockCall (lockIdOf job job.target_mapset_name) job.target_mapset_name
          (job.process_time_limit * job.process_num_limit) true] }
    hnd hsrcfresh
  unfold merge_mapsets
  rw [hc]
  simp only [hsrc]
  split
  · rename_i st2 e2 hs
    rw [hs] at o1
    simp at o1
  · rename_i st2 hs
    rw [hs] at o2 o3 o4 o5
    simp only at o2 o3 o4 o5
    obtain ⟨g1, g2, g3⟩ := merge_loop_all_ok env job job.request_data.length hext hmrg htrm
      ({ st2 with step := 1 } : RunState).lock_ids { st2 with step := 1 }
    refine ⟨g1, ?_, ?_⟩
    · rw [g3]
      show lockCallsOf st2.trace = _
      rw [o3]
      simp [lockCallsOf]
    · rw [g2]
      have hentries : ({ st2 with step := 1 } : RunState).lock_ids
          = (lockIdOf job job.target_mapset_name, job.target_mapset_name)
            :: job.request_data.map (fun m => (lockIdOf job m, m)) := by
        show st2.lock_ids = _
        rw [o2]
        simp
      rw [hentries,
        nonSelfEntries_target_cons_map job _ _ (fun m hm h => hnt (h ▸ hm))]
      show mergeCallsOf st2.trace ++ _ = _
      rw [o4]
      simp [mergeCallsOf]

/-- Witness for C4 at a concrete input: benign environment, target `A`,
sources `["B", "C"]` — one successful lock call each for `A`, `B`, `C` in
that order, and successful merge copies `B` into `A` then `C` into `A`. -/
theorem successful_run_witness :
    (merge_mapsets envAll jobBC initState).2 = none ∧
    lockCallsOf (merge_mapsets envAll jobBC initState).1.trace
      = [("A", true), ("B", true), ("C", true)] ∧
    mergeCallsOf (merge_mapsets envAll jobBC initState).1.trace
      = [("B", "A", true), ("C", "A", true)] := by
  have h := successful_run_locks_and_merges_in_order envAll jobBC (by decide) (by decide)
    (by decide) (fun _ => rfl) (fun _ => rfl) (fun _ => rfl) (fun _ => rfl) (fun _ => rfl)
  exact ⟨h.1, by rw [h.2.1]; rfl, by rw [h.2.2]; rfl⟩

end ActiniaMerge
